import Mathlib

/-!
Verification development for the unitrie repository: shallow embedding of the
key/value store abstractions, the mutations buffer, byte-stream serialization
helpers and the committed radix trie, together with theorems settling the
specification claims.

Byte strings are modelled as `List Nat` (each element a byte value); Go's
`len(v) == 0` test collapses `nil` and empty slices, so both are `[]` here.
-/

set_option maxHeartbeats 1000000

namespace Unitrie

/-- Byte strings (Go `[]byte`); `[]` plays the role of both nil and empty. -/
abbrev Bytes := List Nat

/-- ASCII bytes of a string literal, used to model Go error messages. -/
def str2b (s : String) : Bytes := s.data.map Char.toNat

/-- `isLead p l` : `p` is an initial segment of `l` (Go `bytes.HasPrefix`). -/
def isLead : Bytes → Bytes → Bool
  | [], _ => true
  | _ :: _, [] => false
  | a :: p, b :: l => a = b && isLead p l

/-- `hasSeg n h` : `n` occurs as a contiguous segment of `h`
(Go `strings.Contains` on the underlying bytes). -/
def hasSeg (n : Bytes) : Bytes → Bool
  | [] => n.isEmpty
  | b :: t => isLead n (b :: t) || hasSeg n t

/-! ## Association-list machinery for Go maps

Go maps `map[string][]byte` / `map[string]struct{}` are modelled as
association lists / key lists; insertion replaces any previous binding. -/

/-- Lookup in an association list (first binding wins). -/
def lookupA : List (Bytes × Bytes) → Bytes → Option Bytes
  | [], _ => none
  | (k, v) :: t, key => if k = key then some v else lookupA t key

/-- Remove all bindings of a key. -/
def eraseA : List (Bytes × Bytes) → Bytes → List (Bytes × Bytes)
  | [], _ => []
  | (k, v) :: t, key => if k = key then eraseA t key else (k, v) :: eraseA t key

/-- Insert/replace a binding (models Go map assignment `m[k] = v`). -/
def setA (l : List (Bytes × Bytes)) (k v : Bytes) : List (Bytes × Bytes) :=
  (k, v) :: eraseA l k

/-- Membership test on a key list (models Go `_, ok := m[k]` for set-maps). -/
def memB : List Bytes → Bytes → Bool
  | [], _ => false
  | a :: t, k => if a = k then true else memB t k

/-- Remove a key from a key list (models Go `delete(m, k)` for set-maps). -/
def delB : List Bytes → Bytes → List Bytes
  | [], _ => []
  | a :: t, k => if a = k then delB t k else a :: delB t k

/-- Add a key to a key list if absent (models Go `m[k] = struct{}{}`). -/
def addB (l : List Bytes) (k : Bytes) : List Bytes :=
  if memB l k then l else k :: l

/-- The keys of an association list are pairwise distinct. -/
def NoDupK (l : List (Bytes × Bytes)) : Prop := (l.map Prod.fst).Nodup

/-! ## InMemoryKVStore (src/common/kvimpl.go) -/

/-- In-memory key/value store: the Go `map[string][]byte` as an assoc list. -/
structure InMemoryKVStore where
  m : List (Bytes × Bytes)

/-- `NewInMemoryKVStore` — empty store. -/
def NewInMemoryKVStore : InMemoryKVStore := ⟨[]⟩

/-- `InMemoryKVStore.Set`: nonempty value stores, empty value deletes. -/
def InMemoryKVStore.Set (s : InMemoryKVStore) (k v : Bytes) : InMemoryKVStore :=
  if v = [] then ⟨eraseA s.m k⟩ else ⟨setA s.m k v⟩

/-- `InMemoryKVStore.Get`: absent or stored-empty both read back as nil. -/
def InMemoryKVStore.Get (s : InMemoryKVStore) (k : Bytes) : Option Bytes :=
  match lookupA s.m k with
  | none => none
  | some r => if r = [] then none else some r

/-- `InMemoryKVStore.Has`: raw key presence in the map. -/
def InMemoryKVStore.Has (s : InMemoryKVStore) (k : Bytes) : Bool :=
  (lookupA s.m k).isSome

/-- Stores reachable through the public constructor and `Set`. -/
inductive ReachableKV : InMemoryKVStore → Prop
  | base : ReachableKV NewInMemoryKVStore
  | step {s : InMemoryKVStore} (k v : Bytes) : ReachableKV s → ReachableKV (s.Set k v)

/-! ## HasWithPrefix (src/common/kv.go with the in-memory iterator) -/

/-- The in-memory iterator `IterateKeys` restricted to a byte prefix, threading
an explicit fold state and honouring the early-stop protocol of the callback. -/
def iterKeysPfx (f : Bytes → Bool → Bool × Bool) :
    List (Bytes × Bytes) → Bytes → Bool → Bool
  | [], _, s => s
  | (k, _) :: t, p, s =>
    if isLead p k then
      let r := f k s
      if r.2 then iterKeysPfx f t p r.1 else r.1
    else iterKeysPfx f t p s

/-- `common.HasWithPrefix` over the in-memory store: run the prefix iterator
with a callback that records a hit and stops. -/
def HasWithPrefix (s : InMemoryKVStore) (p : Bytes) : Bool :=
  iterKeysPfx (fun _ _ => (true, false)) s.m p false

/-! ## Mutations buffer (src/common/mutations.go)

`Mutations.set` stores staged values (always nonempty); a deleted key that was
previously set keeps a `[]` marker binding ("storing information it was set
before delete").  `hasCb` records whether a no-double-booking callback was
configured; callback invocations are collected in a list. -/

/-- Errors passed to the no-double-booking callback. -/
inductive MutErr where
  | repSetAlreadySet (k : Bytes)
  | repSetAlreadyDeleted (k : Bytes)
  | repDelAlreadyDeleted (k : Bytes)
  deriving DecidableEq

/-- The bytes of the Go error message for each callback invocation. -/
def MutErr.message : MutErr → Bytes
  | .repSetAlreadySet k =>
      str2b "repetitive SET mutation. The key '" ++ k ++ str2b "' was already set"
  | .repSetAlreadyDeleted k =>
      str2b "repetitive SET mutation. The key '" ++ k ++ str2b "' was already deleted"
  | .repDelAlreadyDeleted k =>
      str2b "repetitive DEL mutation. The key '" ++ k ++ str2b "' was already deleted"

/-- The Mutations buffer state. -/
structure Mutations where
  set : List (Bytes × Bytes)
  del : List Bytes
  hasCb : Bool

/-- `NewMutations` (with or without a double-booking callback). -/
def NewMutations (cb : Bool) : Mutations := ⟨[], [], cb⟩

/-- `Mutations.Set`: returns the new buffer and the callback invocations made. -/
def Mutations.Set (m : Mutations) (k v : Bytes) : Mutations × List MutErr :=
  let errs :=
    if m.hasCb then
      if v ≠ [] then
        if (lookupA m.set k).isSome then [MutErr.repSetAlreadySet k]
        else if memB m.del k then [MutErr.repSetAlreadyDeleted k]
        else []
      else
        if memB m.del k then [MutErr.repDelAlreadyDeleted k] else []
    else []
  if v ≠ [] then
    ({ m with set := setA m.set k v, del := delB m.del k }, errs)
  else
    ({ m with
        set := if (lookupA m.set k).isSome then setA m.set k [] else m.set,
        del := addB m.del k }, errs)

/-- `Mutations.LenSet`. -/
def Mutations.LenSet (m : Mutations) : Nat := m.set.length

/-- `Mutations.LenDel`. -/
def Mutations.LenDel (m : Mutations) : Nat := m.del.length

/-- The SET events produced by the first loop of `Mutations.Iterate`
(`fun` is called only on bindings with a nonempty value). -/
def setEvents : List (Bytes × Bytes) → List (Bytes × Option Bytes × Bool)
  | [] => []
  | (k, v) :: t => if v = [] then setEvents t else (k, some v, true) :: setEvents t

/-- The DEL events produced by the second loop of `Mutations.Iterate`
(`wasSet` is the presence of a binding for the key in the set map). -/
def delEvents (setm : List (Bytes × Bytes)) : List Bytes → List (Bytes × Option Bytes × Bool)
  | [] => []
  | k :: t => (k, none, (lookupA setm k).isSome) :: delEvents setm t

/-- `Mutations.Iterate`: SET events first, then DEL events. -/
def Mutations.Iterate (m : Mutations) : List (Bytes × Option Bytes × Bool) :=
  setEvents m.set ++ delEvents m.set m.del

/-- `Mutations.WriteTo`: apply all set bindings, then all deletions, to a store. -/
def Mutations.WriteTo (m : Mutations) (s : InMemoryKVStore) : InMemoryKVStore :=
  m.del.foldl (fun st k => st.Set k []) (m.set.foldl (fun st p => st.Set p.1 p.2) s)

/-- The buffer holds a pending SET for the key (a nonempty staged value). -/
def pendingSet (m : Mutations) (k : Bytes) : Prop :=
  ∃ v, lookupA m.set k = some v ∧ v ≠ []

/-- The buffer holds a pending DEL for the key. -/
def pendingDel (m : Mutations) (k : Bytes) : Prop := memB m.del k = true

/-- A key on which an op list stages a SET (nonempty value). -/
def hasSetOp : List (Bytes × Bytes) → Bytes → Bool
  | [], _ => false
  | (k', v) :: t, k => (decide (k' = k) && decide (v ≠ [])) || hasSetOp t k

/-- A key on which an op list stages a DEL (empty value). -/
def hasDelOp : List (Bytes × Bytes) → Bytes → Bool
  | [], _ => false
  | (k', v) :: t, k => (decide (k' = k) && decide (v = [])) || hasDelOp t k

/-- The op list SETs the key and later DELs it. -/
def setThenDel : List (Bytes × Bytes) → Bytes → Bool
  | [], _ => false
  | (k', v) :: t, k =>
      (decide (k' = k) && decide (v ≠ []) && hasDelOp t k) || setThenDel t k

/-- Buffers reachable from a constructor by a recorded sequence of `Set` calls
(an op `(k, v)` with `v = []` is a DEL). -/
inductive MutReach : Mutations → List (Bytes × Bytes) → Prop
  | base (cb : Bool) : MutReach (NewMutations cb) []
  | step {m : Mutations} {ops : List (Bytes × Bytes)} (k v : Bytes) :
      MutReach m ops → MutReach (m.Set k v).1 (ops ++ [(k, v)])

/-- All invariants of a reachable Mutations buffer relative to its op history. -/
structure MutInv (m : Mutations) (ops : List (Bytes × Bytes)) : Prop where
  nodup : NoDupK m.set
  setVals : ∀ k v, lookupA m.set k = some v → v ≠ [] → memB m.del k = false
  marker : ∀ k, lookupA m.set k = some [] → memB m.del k = true
  history : ∀ k, (lookupA m.set k).isSome = hasSetOp ops k
  wasSet : ∀ k, memB m.del k = true →
    ((lookupA m.set k = some []) ↔ setThenDel ops k = true)

/-! ## Byte-stream serialization helpers (src/common/util.go)

An `io.Writer` accumulating bytes is a `Bytes`; an `io.Reader` is the list of
bytes still to be consumed.  Machine-level `byte(n)` is `n % 256`. -/

/-- `WriteBytes8`: panics (error) iff the data is longer than 256; otherwise
appends the length byte `byte(len(data))` followed by the data. -/
def WriteBytes8 (w : Bytes) (data : Bytes) : Except Bytes Bytes :=
  if data.length > 256 then .error (str2b "WriteBytes8: too long data")
  else .ok (w ++ [data.length % 256] ++ data)

/-- `ReadBytes8`: reads a length byte, then that many data bytes; errors on a
truncated stream. -/
def ReadBytes8 (r : Bytes) : Except Bytes (Bytes × Bytes) :=
  match r with
  | [] => .error (str2b "EOF")
  | l :: rest =>
    if l = 0 then .ok ([], rest)
    else if rest.length < l then .error (str2b "EOF")
    else .ok (rest.take l, rest.drop l)

/-! ## Trie engine (modelled from the spec - the canonical update engine is not in src/) -/

/-- Modelled from the spec: longest common initial segment of two digit paths, used by the descent of section 4.6. -/
def lcp : List Nat → List Nat → List Nat
  | a :: ta, b :: tb => if a = b then a :: lcp ta tb else []
  | _, _ => []

/-- Modelled from the spec: canonical radix trie of section 4.6 (the update engine is not in src/). A node carries a path fragment, a sorted list of children indexed by the next digit, and an optional terminal value. -/
inductive Trie where
  | node (pf : List Nat) (ch : List (Nat × Trie)) (term : Option Bytes)

/-- Modelled from the spec: path-fragment accessor. -/
def Trie.pf : Trie → List Nat
  | .node p _ _ => p

/-- Modelled from the spec: children accessor. -/
def Trie.ch : Trie → List (Nat × Trie)
  | .node _ c _ => c

/-- Modelled from the spec: terminal-value accessor. -/
def Trie.term : Trie → Option Bytes
  | .node _ _ t => t

/-- Modelled from the spec: child lookup by digit in the sorted child list. -/
def chLookup : List (Nat × Trie) → Nat → Option Trie
  | [], _ => none
  | (d', c) :: t, d => if d' = d then some c else chLookup t d

/-- Modelled from the spec: insert or replace the child at a digit, keeping the list ordered. -/
def chUpdate : List (Nat × Trie) → Nat → Trie → List (Nat × Trie)
  | [], d, c => [(d, c)]
  | (d', c') :: t, d, c =>
    if d < d' then (d, c) :: (d', c') :: t
    else if d = d' then (d, c) :: t
    else (d', c') :: chUpdate t d c

/-- Modelled from the spec: remove the child at a digit. -/
def chRemove : List (Nat × Trie) → Nat → List (Nat × Trie)
  | [], _ => []
  | (d', c') :: t, d => if d' = d then chRemove t d else (d', c') :: chRemove t d

/-- Modelled from the spec: two-child list in digit order, used when a path fragment is split. -/
def twoCh (d1 : Nat) (c1 : Trie) (d2 : Nat) (c2 : Trie) : List (Nat × Trie) :=
  if d1 < d2 then [(d1, c1), (d2, c2)] else [(d2, c2), (d1, c1)]

/-- Modelled from the spec: descent of section 4.6.2, reading a key digit by digit through the path fragment and the children. -/
def getA : List Nat → List (Nat × Trie) → Option Bytes → List Nat → Option Bytes
  | [], _, term, [] => term
  | [], ch, _, d :: r =>
    match chLookup ch d with
    | none => none
    | some c => getA c.pf c.ch c.term r
  | _ :: _, _, _, [] => none
  | x :: p, ch, term, y :: k => if x = y then getA p ch term k else none
termination_by _ _ _ k => k.length
decreasing_by all_goals simp_wf <;> omega

/-- Modelled from the spec: value stored under a digit path. -/
def Trie.get (t : Trie) (k : List Nat) : Option Bytes :=
  getA t.pf t.ch t.term k

/-- Modelled from the spec: update of section 4.6.3 - terminal write, descent into an existing child, extension with a fresh leaf, or path-fragment split. -/
def Trie.ins (t : Trie) (k : List Nat) (v : Bytes) : Trie :=
  match t with
  | .node pf ch term =>
    match pf.drop (lcp pf k).length, hk : k.drop (lcp pf k).length with
    | [], [] => .node pf ch (some v)
    | [], d :: kr =>
      match chLookup ch d with
      | some c => .node pf (chUpdate ch d (Trie.ins c kr v)) term
      | none => .node pf (chUpdate ch d (.node kr [] (some v))) term
    | pd :: pr, [] => .node (lcp pf k) [(pd, .node pr ch term)] (some v)
    | pd :: pr, d :: kr =>
      .node (lcp pf k) (twoCh pd (.node pr ch term) d (.node kr [] (some v))) none
termination_by k.length
decreasing_by
  have := congrArg List.length hk
  simp [List.length_drop] at this
  omega

/-- Modelled from the spec: deletion at the node itself (section 4.6.4) - clear the terminal and merge with a single remaining child. -/
def delTerm (pf : List Nat) (ch : List (Nat × Trie)) (term : Option Bytes) :
    Option Trie × Bool :=
  match term, ch with
  | none, _ => (some (.node pf ch none), false)
  | some _, [] => (none, true)
  | some _, [(d, c)] => (some (.node (pf ++ d :: c.pf) c.ch c.term), true)
  | some _, _ => (some (.node pf ch none), true)

/-- Modelled from the spec: reorganisation after a child subtree disappears (section 4.6.4) - merge, drop the node, or keep the remaining children. -/
def delGone (pf : List Nat) (ch : List (Nat × Trie)) (term : Option Bytes)
    (d : Nat) (b : Bool) : Option Trie × Bool :=
  match term, chRemove ch d with
  | none, [(d', c')] => (some (.node (pf ++ d' :: c'.pf) c'.ch c'.term), b)
  | none, [] => (none, b)
  | tm, ch' => (some (.node pf ch' tm), b)

/-- Modelled from the spec: deletion of section 4.6.4; the flag reports whether the key was present. -/
def Trie.del (t : Trie) (k : List Nat) : Option Trie × Bool :=
  match t with
  | .node pf ch term =>
    match pf.drop (lcp pf k).length, hk : k.drop (lcp pf k).length with
    | [], [] => delTerm pf ch term
    | [], d :: kr =>
      match chLookup ch d with
      | none => (some (.node pf ch term), false)
      | some c =>
        match Trie.del c kr with
        | (some c', b) => (some (.node pf (chUpdate ch d c') term), b)
        | (none, b) => delGone pf ch term d b
    | _ :: _, _ => (some (.node pf ch term), false)
termination_by k.length
decreasing_by
  have := congrArg List.length hk
  simp [List.length_drop] at this
  omega

/-- Modelled from the spec: children are kept strictly ordered by digit. -/
def chSorted (l : List (Nat × Trie)) : Prop := l.Pairwise (fun a b => a.1 < b.1)

/-- Modelled from the spec: canonical-form invariant of section 4.6 - sorted children, well-formed subtrees, and no internal node with fewer than two children unless it holds a terminal. -/
inductive Trie.WF : Trie → Prop where
  | node {pf : List Nat} {ch : List (Nat × Trie)} {term : Option Bytes} :
      chSorted ch →
      (∀ p ∈ ch, Trie.WF p.2) →
      (term.isSome = true ∨ 2 ≤ ch.length) →
      Trie.WF (.node pf ch term)

/-- Modelled from the spec: read through an optional subtree (a removed subtree reads as none). -/
def getO : Option Trie → List Nat → Option Bytes
  | none, _ => none
  | some t, k => t.get k

/-- Modelled from the spec: the three path arities (2, 16, 256). -/
inductive PathArity where
  | two
  | sixteen
  | b256
deriving DecidableEq

/-- Modelled from the spec: a key byte unpacked into path digits - 8 bits, two nibbles (high first), or the byte itself. -/
def unpackByte : PathArity → Nat → List Nat
  | .two, b => [b / 128 % 2, b / 64 % 2, b / 32 % 2, b / 16 % 2,
      b / 8 % 2, b / 4 % 2, b / 2 % 2, b % 2]
  | .sixteen, b => [b / 16, b % 16]
  | .b256, b => [b]

/-- Modelled from the spec: a key unpacked into its digit path. -/
def unpackKey (ar : PathArity) : Bytes → List Nat
  | [] => []
  | b :: r => unpackByte ar b ++ unpackKey ar r

/-- Modelled from the spec: keys are byte strings, each element below 256. -/
def ValidKey (k : Bytes) : Prop := ∀ b ∈ k, b < 256

/-- Modelled from the spec: one step of an update sequence - an update (empty value means delete) or an intermediate commit. -/
inductive TrieOp where
  | upd (key val : Bytes)
  | commit
deriving DecidableEq

/-- Modelled from the spec: the root created by MustInitRoot holds the trie identity at the empty key. -/
def initRoot (ident : Bytes) : Trie := .node [] [] (some ident)

/-- Modelled from the spec: apply one operation to the trie content; a commit does not change content, an update with empty value deletes the key, otherwise it stores the value. -/
def applyOp (ar : PathArity) (t : Trie) (op : TrieOp) : Trie :=
  match op with
  | .commit => t
  | .upd key val =>
    match unpackKey ar key with
    | [] => t
    | d :: kr =>
      if val = [] then
        match (t.del (d :: kr)).1 with
        | some t' => t'
        | none => t
      else t.ins (d :: kr) val

/-- Modelled from the spec: apply a whole update sequence. -/
def applyOps (ar : PathArity) (t : Trie) (ops : List TrieOp) : Trie :=
  ops.foldl (applyOp ar) t

/-- Modelled from the spec: the root stays well formed, with empty path fragment and the identity as terminal. -/
def RootInv (ident : Bytes) (t : Trie) : Prop :=
  t.WF ∧ ∃ ch, t = Trie.node [] ch (some ident)

/-- Modelled from the spec: effect of one operation on the value finally observed at a fixed digit path. -/
def pvStep (ar : PathArity) (q : List Nat) (acc : Option Bytes) (op : TrieOp) :
    Option Bytes :=
  match op with
  | .commit => acc
  | .upd key val =>
    if unpackKey ar key = q ∧ q ≠ [] then (if val = [] then none else some val) else acc

/-- Modelled from the spec: effect of one operation on the final key-to-value mapping at a fixed key. -/
def mapStep (kb : Bytes) (acc : Option Bytes) (op : TrieOp) : Option Bytes :=
  match op with
  | .commit => acc
  | .upd key val => if key = kb then (if val = [] then none else some val) else acc

/-- Modelled from the spec: the final key-to-value mapping of an update sequence (none when the key was deleted or never set). -/
def opsMap (ops : List TrieOp) (kb : Bytes) : Option Bytes :=
  ops.foldl (mapStep kb) none

/-- Modelled from the spec: an update carries a byte-string key. -/
def OpKeyValid : TrieOp → Prop
  | .commit => True
  | .upd key _ => ValidKey key

/-- Modelled from the spec: all update keys are byte strings. -/
def ValidOps (ops : List TrieOp) : Prop := ∀ op ∈ ops, OpKeyValid op

/-- TrieReader of src/immutable/trie.go - a node-store source and the persistent
root commitment the reader was opened at. -/
structure TrieReaderM where
  store : InMemoryKVStore
  persistentRoot : Bytes

/-- Modelled from the spec: the partition prefix under which trie nodes are stored
(the node-store implementation is not in src/). -/
def partitionTrieNodes : Nat := 0

/-- Modelled from the spec: node data stored for a commitment - present exactly when
a node record exists under the trie-node partition at that commitment (the
node-store implementation is not in src/). -/
def fetchNodeData (store : InMemoryKVStore) (c : Bytes) : Option Bytes :=
  store.Get (partitionTrieNodes :: c)

/-- newTrieReader of src/immutable/trie.go: fetch the root node data; if absent,
fail with the message built by fmt.Errorf, otherwise return the reader (holding a
clone of the root, equal to it) together with the root node data. -/
def newTrieReaderM (store : InMemoryKVStore) (root : Bytes) :
    Except Bytes (TrieReaderM × Bytes) :=
  match fetchNodeData store root with
  | none => .error (str2b "root commitment '" ++ root ++ str2b "' does not exist")
  | some nodeData => .ok (⟨store, root⟩, nodeData)

/-- TrieReader.Root of src/immutable/trie.go. -/
def TrieReaderM.Root (tr : TrieReaderM) : Bytes := tr.persistentRoot

/-- TrieUpdatable of src/immutable/trie.go - the persistent root (nil after the
instance is invalidated) and the buffered mutated root, abstracted to the node
data it would commit. -/
structure TrieUpdatableM where
  persistentRoot : Option Bytes
  mutatedRootData : Bytes

/-- NewTrieUpdatable of src/immutable/trie.go: open a reader and wrap the fetched
root node data as the buffered root. -/
def newTrieUpdatableM (store : InMemoryKVStore) (root : Bytes) :
    Except Bytes TrieUpdatableM :=
  match newTrieReaderM store root with
  | .error e => .error e
  | .ok (tr, nodeData) => .ok ⟨some tr.persistentRoot, nodeData⟩

/-- TrieUpdatable.Commit of src/immutable/trie.go: assert the persistent root is
not nil (message of line 91, with the assertion-failure prefix of
common.Assertf), return the commitment of the mutated root (the commitment
computation, absent from src/, is abstracted as `cm`), and clear the persistent
root, invalidating the instance. -/
def TrieUpdatableM.Commit (cm : Bytes → Bytes) (tr : TrieUpdatableM) :
    Except Bytes (Bytes × TrieUpdatableM) :=
  match tr.persistentRoot with
  | none => .error (str2b "assertion failed:: Commit:: updatable trie has been invalidated")
  | some _ => .ok (cm tr.mutatedRootData, ⟨none, tr.mutatedRootData⟩)

/-! ## Theorems -/

theorem isLead_nil (l : Bytes) : isLead [] l = true := rfl

theorem isLead_refl (l : Bytes) : isLead l l = true := by
  induction l with
  | nil => rfl
  | cons a t ih => simp [isLead, ih]

theorem isLead_append (p r : Bytes) : isLead p (p ++ r) = true := by
  induction p with
  | nil => rfl
  | cons a t ih => simp [isLead, ih]

theorem isLead_iff_exists {p l : Bytes} : isLead p l = true ↔ ∃ r, l = p ++ r := by
  induction p generalizing l with
  | nil => simp [isLead]
  | cons a t ih =>
    cases l with
    | nil => simp [isLead]
    | cons b m =>
      simp only [isLead, Bool.and_eq_true, decide_eq_true_eq, ih, List.cons_append,
        List.cons.injEq]
      constructor
      · rintro ⟨rfl, r, rfl⟩; exact ⟨r, rfl, rfl⟩
      · rintro ⟨r, rfl, rfl⟩; exact ⟨rfl, r, rfl⟩

theorem hasSeg_of_isLead {n h : Bytes} (hp : isLead n h = true) : hasSeg n h = true := by
  cases h with
  | nil =>
    cases n with
    | nil => rfl
    | cons a t => simp [isLead] at hp
  | cons b t => simp [hasSeg, hp]

theorem hasSeg_append_left (n r : Bytes) : hasSeg (n ++ r) (n ++ r) = true := by
  exact hasSeg_of_isLead (isLead_refl _)

theorem lookupA_eraseA (l : List (Bytes × Bytes)) (k key : Bytes) :
    lookupA (eraseA l k) key = if k = key then none else lookupA l key := by
  induction l with
  | nil => simp [eraseA, lookupA]
  | cons p t ih =>
    obtain ⟨k', v'⟩ := p
    by_cases h1 : k' = k
    · subst h1
      by_cases h2 : k' = key
      · subst h2; simp [eraseA, lookupA, ih]
      · simp [eraseA, lookupA, h2, ih]
    · by_cases h2 : k' = key
      · subst h2
        have : ¬ k = k' := fun h => h1 h.symm
        simp [eraseA, lookupA, h1, this]
      · simp [eraseA, lookupA, h1, h2, ih]

theorem lookupA_setA (l : List (Bytes × Bytes)) (k v key : Bytes) :
    lookupA (setA l k v) key = if k = key then some v else lookupA l key := by
  by_cases h : k = key
  · simp [setA, lookupA, h]
  · simp [setA, lookupA, h, lookupA_eraseA]

theorem memB_delB (l : List Bytes) (k key : Bytes) :
    memB (delB l k) key = if k = key then false else memB l key := by
  induction l with
  | nil => simp [delB, memB]
  | cons a t ih =>
    by_cases h1 : a = k
    · subst h1
      by_cases h2 : a = key
      · subst h2; simp [delB, memB, ih]
      · simp [delB, memB, h2, ih]
    · by_cases h2 : a = key
      · subst h2
        have : ¬ k = a := fun h => h1 h.symm
        simp [delB, memB, h1, this]
      · simp [delB, memB, h1, h2, ih]

theorem memB_addB (l : List Bytes) (k key : Bytes) :
    memB (addB l k) key = if k = key then true else memB l key := by
  by_cases hm : memB l k
  · by_cases h : k = key
    · subst h; simp [addB, hm]
    · simp [addB, hm, h]
  · by_cases h : k = key
    · subst h; simp [addB, hm, memB]
    · simp [addB, hm, memB, h]

theorem memB_iff_mem {l : List Bytes} {k : Bytes} : memB l k = true ↔ k ∈ l := by
  induction l with
  | nil => simp [memB]
  | cons a t ih =>
    simp only [memB, List.mem_cons]
    by_cases h : a = k
    · subst h; simp
    · simp only [h, if_false, ih]
      constructor
      · exact Or.inr
      · rintro (rfl | hm)
        · exact absurd rfl h
        · exact hm

theorem nodupK_eraseA {l : List (Bytes × Bytes)} (k : Bytes) (h : NoDupK l) :
    NoDupK (eraseA l k) := by
  induction l with
  | nil => exact h
  | cons p t ih =>
    obtain ⟨k', v'⟩ := p
    simp only [NoDupK, List.map_cons, List.nodup_cons] at h
    by_cases h1 : k' = k
    · simpa [eraseA, h1] using ih h.2
    · have ht := ih h.2
      simp only [eraseA, h1, if_false, NoDupK, List.map_cons, List.nodup_cons]
      refine ⟨fun hc => h.1 ?_, ht⟩
      simp only [List.mem_map] at hc ⊢
      obtain ⟨p, hp, hpk⟩ := hc
      have : p ∈ t := by
        clear ih ht h hpk
        induction t with
        | nil => simp [eraseA] at hp
        | cons q s ihs =>
          obtain ⟨kq, vq⟩ := q
          by_cases hq : kq = k
          · simp only [eraseA, hq, if_true] at hp
            exact List.mem_cons_of_mem _ (ihs hp)
          · simp only [eraseA, hq, if_false, List.mem_cons] at hp
            rcases hp with hp | hp
            · exact hp ▸ List.mem_cons_self _ _
            · exact List.mem_cons_of_mem _ (ihs hp)
      exact ⟨p, this, hpk⟩

theorem not_mem_map_eraseA (l : List (Bytes × Bytes)) (k : Bytes) :
    k ∉ (eraseA l k).map Prod.fst := by
  induction l with
  | nil => simp [eraseA]
  | cons p t ih =>
    obtain ⟨k', v'⟩ := p
    by_cases h1 : k' = k
    · simpa [eraseA, h1] using ih
    · simp only [eraseA, h1, if_false, List.map_cons, List.mem_cons]
      rintro (h | h)
      · exact h1 h.symm
      · exact ih h

theorem nodupK_setA {l : List (Bytes × Bytes)} (k v : Bytes) (h : NoDupK l) :
    NoDupK (setA l k v) := by
  simp only [setA, NoDupK, List.map_cons, List.nodup_cons]
  exact ⟨not_mem_map_eraseA l k, nodupK_eraseA k h⟩

theorem length_eraseA_of_none {l : List (Bytes × Bytes)} {k : Bytes}
    (h : lookupA l k = none) : eraseA l k = l := by
  induction l with
  | nil => rfl
  | cons p t ih =>
    obtain ⟨k', v'⟩ := p
    by_cases h1 : k' = k
    · simp [lookupA, h1] at h
    · simp only [lookupA, h1, if_false] at h
      simp [eraseA, h1, ih h]

theorem length_eraseA_of_some {l : List (Bytes × Bytes)} {k : Bytes} {v : Bytes}
    (hnd : NoDupK l) (h : lookupA l k = some v) :
    (eraseA l k).length + 1 = l.length := by
  induction l with
  | nil => simp [lookupA] at h
  | cons p t ih =>
    obtain ⟨k', v'⟩ := p
    simp only [NoDupK, List.map_cons, List.nodup_cons] at hnd
    by_cases h1 : k' = k
    · subst h1
      have : lookupA t k' = none := by
        rcases hl : lookupA t k' with _ | w
        · rfl
        · exfalso
          apply hnd.1
          clear ih h hnd
          induction t with
          | nil => simp [lookupA] at hl
          | cons q s ihs =>
            obtain ⟨kq, vq⟩ := q
            by_cases hq : kq = k'
            · simp [hq]
            · simp only [lookupA, hq, if_false] at hl
              simp only [List.map_cons, List.mem_cons]
              exact Or.inr (ihs hl)
      simp [eraseA, length_eraseA_of_none this]
    · simp only [lookupA, h1, if_false] at h
      simp [eraseA, h1, ← ih hnd.2 h]

theorem reachableKV_values_nonempty {s : InMemoryKVStore} (h : ReachableKV s) :
    ∀ k v, lookupA s.m k = some v → v ≠ [] := by
  induction h with
  | base => intro k v hl; simp [NewInMemoryKVStore, lookupA] at hl
  | step k v _ ih =>
    intro k' v' hl
    by_cases hv : v = []
    · simp only [InMemoryKVStore.Set, hv, if_true] at hl
      rw [lookupA_eraseA] at hl
      by_cases hk : k = k'
      · simp [hk] at hl
      · exact ih k' v' (by simpa [hk] using hl)
    · simp only [InMemoryKVStore.Set, hv, if_false] at hl
      rw [lookupA_setA] at hl
      by_cases hk : k = k'
      · simp only [hk, if_true, Option.some.injEq] at hl
        exact hl ▸ hv
      · exact ih k' v' (by simpa [hk] using hl)

theorem kv_set_empty_get (s : InMemoryKVStore) (k : Bytes) :
    (s.Set k []).Get k = none := by
  simp [InMemoryKVStore.Set, InMemoryKVStore.Get, lookupA_eraseA]

theorem kv_set_empty_has (s : InMemoryKVStore) (k : Bytes) :
    (s.Set k []).Has k = false := by
  simp [InMemoryKVStore.Set, InMemoryKVStore.Has, lookupA_eraseA]

theorem kv_get_ne_some_nil (s : InMemoryKVStore) (k : Bytes) :
    s.Get k ≠ some [] := by
  unfold InMemoryKVStore.Get
  rcases lookupA s.m k with _ | r
  · simp
  · by_cases h : r = [] <;> simp [h]

theorem kv_has_iff_get {s : InMemoryKVStore} (h : ReachableKV s) (k : Bytes) :
    s.Has k = true ↔ s.Get k ≠ none := by
  unfold InMemoryKVStore.Has InMemoryKVStore.Get
  rcases hl : lookupA s.m k with _ | r
  · simp
  · have := reachableKV_values_nonempty h k r hl
    simp [this]

theorem hasWithPrefix_iff (s : InMemoryKVStore) (p : Bytes) :
    HasWithPrefix s p = true ↔ ∃ kv ∈ s.m, isLead p kv.1 = true := by
  unfold HasWithPrefix
  induction s.m with
  | nil => simp [iterKeysPfx]
  | cons q t ih =>
    obtain ⟨k, v⟩ := q
    cases h : isLead p k with
    | true =>
      constructor
      · intro _
        exact ⟨(k, v), List.mem_cons_self _ _, h⟩
      · intro _
        simp [iterKeysPfx, h]
    | false =>
      have hstep : iterKeysPfx (fun _ _ => (true, false)) ((k, v) :: t) p false
          = iterKeysPfx (fun _ _ => (true, false)) t p false := by
        simp [iterKeysPfx, h]
      rw [hstep, ih]
      constructor
      · rintro ⟨kv, hm, hl⟩
        exact ⟨kv, List.mem_cons_of_mem _ hm, hl⟩
      · rintro ⟨kv, hm, hl⟩
        rcases List.mem_cons.mp hm with rfl | hm2
        · rw [h] at hl; cases hl
        · exact ⟨kv, hm2, hl⟩

theorem hasSetOp_append (ops : List (Bytes × Bytes)) (k' v' k : Bytes) :
    hasSetOp (ops ++ [(k', v')]) k
      = (hasSetOp ops k || (decide (k' = k) && decide (v' ≠ []))) := by
  induction ops with
  | nil => simp [hasSetOp]
  | cons p t ih =>
    obtain ⟨ka, va⟩ := p
    simp [hasSetOp, ih, Bool.or_assoc]

theorem hasDelOp_append (ops : List (Bytes × Bytes)) (k' v' k : Bytes) :
    hasDelOp (ops ++ [(k', v')]) k
      = (hasDelOp ops k || (decide (k' = k) && decide (v' = []))) := by
  induction ops with
  | nil => simp [hasDelOp]
  | cons p t ih =>
    obtain ⟨ka, va⟩ := p
    simp [hasDelOp, ih, Bool.or_assoc]

theorem setThenDel_append (ops : List (Bytes × Bytes)) (k' v' k : Bytes) :
    setThenDel (ops ++ [(k', v')]) k
      = (setThenDel ops k || (decide (k' = k) && decide (v' = []) && hasSetOp ops k)) := by
  induction ops with
  | nil => simp [setThenDel, hasDelOp, hasSetOp]
  | cons p t ih =>
    obtain ⟨ka, va⟩ := p
    rw [List.cons_append]
    simp only [setThenDel, hasSetOp]
    rw [ih, hasDelOp_append]
    cases decide (ka = k) <;> cases decide (va ≠ []) <;>
      cases hasDelOp t k <;> cases setThenDel t k <;>
      cases decide (k' = k) <;> cases decide (v' = []) <;>
      cases hasSetOp t k <;> rfl

theorem setThenDel_hasSetOp {ops : List (Bytes × Bytes)} {k : Bytes}
    (h : setThenDel ops k = true) : hasSetOp ops k = true := by
  induction ops with
  | nil => simp [setThenDel] at h
  | cons p t ih =>
    obtain ⟨ka, va⟩ := p
    simp only [setThenDel, Bool.or_eq_true, Bool.and_eq_true] at h
    simp only [hasSetOp, Bool.or_eq_true, Bool.and_eq_true]
    rcases h with ⟨⟨h1, h2⟩, _⟩ | h
    · exact Or.inl ⟨h1, h2⟩
    · exact Or.inr (ih h)

theorem mutSet_fst_set (m : Mutations) (k v : Bytes) (hv : v ≠ []) :
    (m.Set k v).1 = { m with set := setA m.set k v, del := delB m.del k } := by
  simp [Mutations.Set, hv]

theorem mutSet_fst_del (m : Mutations) (k : Bytes) :
    (m.Set k []).1 = { m with
        set := if (lookupA m.set k).isSome then setA m.set k [] else m.set,
        del := addB m.del k } := by
  simp [Mutations.Set]

theorem mutSet_del_lookup (m : Mutations) (k k' : Bytes) :
    lookupA (m.Set k []).1.set k'
      = if k = k' then (if (lookupA m.set k).isSome then some [] else none)
        else lookupA m.set k' := by
  rw [mutSet_fst_del]
  cases hs : (lookupA m.set k).isSome with
  | false =>
    simp only [hs, Bool.false_eq_true, if_false]
    by_cases hk : k = k'
    · subst hk
      rw [if_pos rfl]
      exact Option.not_isSome_iff_eq_none.mp (by simp [hs])
    · simp [hk]
  | true =>
    simp only [hs, if_true]
    rw [lookupA_setA]

theorem mutReach_inv {m : Mutations} {ops : List (Bytes × Bytes)}
    (h : MutReach m ops) : MutInv m ops := by
  induction h with
  | base cb =>
    refine ⟨?_, ?_, ?_, ?_, ?_⟩
    · simp [NewMutations, NoDupK]
    · intro k v hl; simp [NewMutations, lookupA] at hl
    · intro k hl; simp [NewMutations, lookupA] at hl
    · intro k; simp [NewMutations, lookupA, hasSetOp]
    · intro k hd; simp [NewMutations, memB] at hd
  | @step m0 ops0 k v _ ih =>
    obtain ⟨nodup, setVals, marker, history, wasSet⟩ := ih
    by_cases hv : v = []
    · subst hv
      have hset := mutSet_del_lookup m0 k
      have hdel : (Mutations.Set m0 k []).1.del = addB m0.del k := by
        rw [mutSet_fst_del]
      refine ⟨?_, ?_, ?_, ?_, ?_⟩
      · rw [mutSet_fst_del]
        cases hs : (lookupA m0.set k).isSome with
        | false => simpa [hs] using nodup
        | true => simpa [hs] using nodupK_setA k [] nodup
      · intro k' v' hl hv'
        rw [hset k'] at hl
        by_cases hk : k = k'
        · exfalso
          simp only [hk, if_true] at hl
          cases hs : (lookupA m0.set k).isSome with
          | false => rw [hk] at hs; simp [hs] at hl
          | true =>
            rw [hk] at hs
            simp only [hs, if_true, Option.some.injEq] at hl
            exact hv' hl.symm
        · rw [hdel, memB_addB]
          simp only [hk, if_false] at hl ⊢
          exact setVals k' v' hl hv'
      · intro k' hl
        rw [hdel, memB_addB]
        by_cases hk : k = k'
        · simp [hk]
        · rw [hset k'] at hl
          simp only [hk, if_false] at hl ⊢
          exact marker k' hl
      · intro k'
        rw [hset k', hasSetOp_append]
        have hz : (decide (k = k') && decide (([] : Bytes) ≠ [])) = false := by simp
        rw [hz, Bool.or_false]
        by_cases hk : k = k'
        · subst hk
          simp only [if_true]
          cases hs : (lookupA m0.set k).isSome with
          | false =>
            have : hasSetOp ops0 k = false := by rw [← history k, hs]
            simp [hs, this]
          | true =>
            have : hasSetOp ops0 k = true := by rw [← history k, hs]
            simp [hs, this]
        · simp only [hk, if_false]
          exact history k'
      · intro k' hd
        rw [hset k', setThenDel_append]
        by_cases hk : k = k'
        · subst hk
          have hb : (decide (k = k) && decide (([] : Bytes) = []) && hasSetOp ops0 k)
              = hasSetOp ops0 k := by simp
          rw [hb, if_pos rfl]
          cases hs : (lookupA m0.set k).isSome with
          | false =>
            have hso : hasSetOp ops0 k = false := by rw [← history k, hs]
            have hstd : setThenDel ops0 k = false := by
              cases hstd : setThenDel ops0 k with
              | false => rfl
              | true => rw [setThenDel_hasSetOp hstd] at hso; cases hso
            simp [hs, hso, hstd]
          | true =>
            have hso : hasSetOp ops0 k = true := by rw [← history k, hs]
            simp [hs, hso]
        · have hb : (decide (k = k') && decide (([] : Bytes) = []) && hasSetOp ops0 k')
              = false := by simp [hk]
          rw [hb, Bool.or_false]
          rw [hdel, memB_addB] at hd
          simp only [hk, if_false] at hd ⊢
          exact wasSet k' hd
    · have hset : (m0.Set k v).1.set = setA m0.set k v := by
        rw [mutSet_fst_set m0 k v hv]
      have hdel : (m0.Set k v).1.del = delB m0.del k := by
        rw [mutSet_fst_set m0 k v hv]
      refine ⟨?_, ?_, ?_, ?_, ?_⟩
      · rw [hset]; exact nodupK_setA k v nodup
      · intro k' v' hl hv'
        rw [hset, lookupA_setA] at hl
        rw [hdel, memB_delB]
        by_cases hk : k = k'
        · simp [hk]
        · simp only [hk, if_false] at hl ⊢
          exact setVals k' v' hl hv'
      · intro k' hl
        rw [hset, lookupA_setA] at hl
        rw [hdel, memB_delB]
        by_cases hk : k = k'
        · exfalso
          simp only [hk, if_true, Option.some.injEq] at hl
          exact hv hl
        · simp only [hk, if_false] at hl ⊢
          rw [marker k' hl]
      · intro k'
        rw [hset, lookupA_setA, hasSetOp_append]
        by_cases hk : k = k'
        · simp [hk, hv]
        · simp only [hk, if_false]
          rw [history k']
          simp [hk]
      · intro k' hd
        rw [hdel, memB_delB] at hd
        by_cases hk : k = k'
        · simp [hk] at hd
        · simp only [hk, if_false] at hd
          rw [hset, lookupA_setA, setThenDel_append]
          have hb : (decide (k = k') && decide (v = []) && hasSetOp ops0 k') = false := by
            simp [hk]
          rw [hb, Bool.or_false]
          simp only [hk, if_false]
          exact wasSet k' hd

theorem lookupA_mem {l : List (Bytes × Bytes)} {k v : Bytes}
    (h : lookupA l k = some v) : (k, v) ∈ l := by
  induction l with
  | nil => simp [lookupA] at h
  | cons p t ih =>
    obtain ⟨k0, v0⟩ := p
    by_cases hk : k0 = k
    · subst hk
      have h2 : some v0 = some v := by simpa [lookupA] using h
      obtain rfl : v0 = v := Option.some.inj h2
      exact List.mem_cons_self _ _
    · simp only [lookupA, hk, if_false] at h
      exact List.mem_cons_of_mem _ (ih h)

theorem lookupA_eq_none_of_not_mem {l : List (Bytes × Bytes)} {k : Bytes}
    (h : k ∉ l.map Prod.fst) : lookupA l k = none := by
  induction l with
  | nil => rfl
  | cons p t ih =>
    obtain ⟨k0, v0⟩ := p
    simp only [List.map_cons, List.mem_cons] at h
    push_neg at h
    have hk : ¬ k0 = k := fun he => h.1 he.symm
    simp only [lookupA, hk, if_false]
    exact ih h.2

theorem lookupA_eq_of_mem_nodup {l : List (Bytes × Bytes)} {k v : Bytes}
    (hnd : NoDupK l) (h : (k, v) ∈ l) : lookupA l k = some v := by
  induction l with
  | nil => simp at h
  | cons p t ih =>
    obtain ⟨k0, v0⟩ := p
    simp only [NoDupK, List.map_cons, List.nodup_cons] at hnd
    rcases List.mem_cons.mp h with he | hm
    · have h1 : k = k0 := congrArg Prod.fst he
      have h2 : v = v0 := congrArg Prod.snd he
      subst h1; subst h2
      simp [lookupA]
    · have hk : ¬ k0 = k := by
        intro he
        subst he
        exact hnd.1 (List.mem_map.mpr ⟨(k0, v), hm, rfl⟩)
      simp only [lookupA, hk, if_false]
      exact ih hnd.2 hm

theorem setFold_lookup (l : List (Bytes × Bytes)) (st : InMemoryKVStore) (k : Bytes)
    (hnd : NoDupK l) :
    lookupA ((l.foldl (fun st p => st.Set p.1 p.2) st).m) k =
      match lookupA l k with
      | some v => if v = [] then none else some v
      | none => lookupA st.m k := by
  induction l generalizing st with
  | nil => simp [lookupA]
  | cons p t ih =>
    obtain ⟨k0, v0⟩ := p
    simp only [NoDupK, List.map_cons, List.nodup_cons] at hnd
    rw [List.foldl_cons]
    rw [ih (st.Set k0 v0) hnd.2]
    by_cases hk : k0 = k
    · subst hk
      have ht : lookupA t k0 = none :=
        lookupA_eq_none_of_not_mem (by exact hnd.1)
      rw [ht]
      simp only [lookupA, if_pos rfl]
      by_cases hv : v0 = []
      · simp [InMemoryKVStore.Set, hv, lookupA_eraseA]
      · simp [InMemoryKVStore.Set, hv, lookupA_setA]
    · simp only [lookupA, hk, if_false]
      rcases hl : lookupA t k with _ | w
      · by_cases hv : v0 = []
        · simp [InMemoryKVStore.Set, hv, lookupA_eraseA, hk]
        · simp [InMemoryKVStore.Set, hv, lookupA_setA, hk]
      · rfl

theorem delFold_lookup (dl : List Bytes) (st : InMemoryKVStore) (k : Bytes) :
    lookupA ((dl.foldl (fun st k => st.Set k []) st).m) k =
      if memB dl k then none else lookupA st.m k := by
  induction dl generalizing st with
  | nil => simp [memB]
  | cons k0 t ih =>
    rw [List.foldl_cons, ih]
    by_cases hk : k0 = k
    · subst hk
      by_cases hm : memB t k0
      · simp [memB, hm]
      · simp [memB, hm, InMemoryKVStore.Set, lookupA_eraseA]
    · by_cases hm : memB t k
      · simp [memB, hk, hm]
      · simp [memB, hk, hm, InMemoryKVStore.Set, lookupA_eraseA]

theorem writeTo_lookup {m : Mutations} {ops : List (Bytes × Bytes)}
    (h : MutReach m ops) (st : InMemoryKVStore) (k : Bytes) :
    lookupA ((m.WriteTo st).m) k =
      if memB m.del k then none
      else match lookupA m.set k with
           | some v => some v
           | none => lookupA st.m k := by
  obtain ⟨nodup, _, marker, _, _⟩ := mutReach_inv h
  unfold Mutations.WriteTo
  rw [delFold_lookup, setFold_lookup m.set st k nodup]
  by_cases hd : memB m.del k
  · simp [hd]
  · simp only [hd, Bool.false_eq_true, if_false]
    rcases hl : lookupA m.set k with _ | v
    · rfl
    · by_cases hv : v = []
      · subst hv
        exact absurd (marker k hl) (by simp [hd])
      · simp [hv]

theorem mem_setEvents_shape {l : List (Bytes × Bytes)} {ev : Bytes × Option Bytes × Bool}
    (h : ev ∈ setEvents l) : ∃ k v, ev = (k, some v, true) ∧ (k, v) ∈ l ∧ v ≠ [] := by
  induction l with
  | nil => simp [setEvents] at h
  | cons p t ih =>
    obtain ⟨k0, v0⟩ := p
    by_cases hv : v0 = []
    · simp only [setEvents, hv, if_pos rfl] at h
      obtain ⟨k, v, he, hm, hne⟩ := ih (by simpa [hv] using h)
      exact ⟨k, v, he, List.mem_cons_of_mem _ hm, hne⟩
    · simp only [setEvents, hv, if_false, List.mem_cons] at h
      rcases h with he | hm
      · exact ⟨k0, v0, he, List.mem_cons_self _ _, hv⟩
      · obtain ⟨k, v, he, hm2, hne⟩ := ih hm
        exact ⟨k, v, he, List.mem_cons_of_mem _ hm2, hne⟩

theorem mem_setEvents {l : List (Bytes × Bytes)} {k v : Bytes}
    (h : (k, v) ∈ l) (hv : v ≠ []) : (k, some v, true) ∈ setEvents l := by
  induction l with
  | nil => simp at h
  | cons p t ih =>
    obtain ⟨k0, v0⟩ := p
    rcases List.mem_cons.mp h with he | hm
    · obtain ⟨h1, h2⟩ : k = k0 ∧ v = v0 := by
        exact ⟨congrArg Prod.fst he, congrArg Prod.snd he⟩
      subst h1; subst h2
      simp [setEvents, hv]
    · by_cases hv0 : v0 = [] <;> simp [setEvents, hv0, ih hm]

theorem mem_delEvents_shape {sm : List (Bytes × Bytes)} {dl : List Bytes}
    {ev : Bytes × Option Bytes × Bool} (h : ev ∈ delEvents sm dl) :
    ∃ k, ev = (k, none, (lookupA sm k).isSome) ∧ k ∈ dl := by
  induction dl with
  | nil => simp [delEvents] at h
  | cons k0 t ih =>
    simp only [delEvents, List.mem_cons] at h
    rcases h with he | hm
    · exact ⟨k0, he, List.mem_cons_self _ _⟩
    · obtain ⟨k, he, hm2⟩ := ih hm
      exact ⟨k, he, List.mem_cons_of_mem _ hm2⟩

theorem mem_delEvents {sm : List (Bytes × Bytes)} {dl : List Bytes} {k : Bytes}
    (h : k ∈ dl) : (k, none, (lookupA sm k).isSome) ∈ delEvents sm dl := by
  induction dl with
  | nil => simp at h
  | cons k0 t ih =>
    rcases List.mem_cons.mp h with he | hm
    · subst he; simp [delEvents]
    · simp [delEvents, ih hm]

theorem del_flag_eq_setThenDel {m : Mutations} {ops : List (Bytes × Bytes)}
    (h : MutReach m ops) {k : Bytes} (hd : memB m.del k = true) :
    (lookupA m.set k).isSome = setThenDel ops k := by
  obtain ⟨_, setVals, _, _, wasSet⟩ := mutReach_inv h
  rcases hl : lookupA m.set k with _ | v
  · cases hstd : setThenDel ops k with
    | false => rfl
    | true =>
      have := (wasSet k hd).mpr hstd
      rw [hl] at this
      cases this
  · by_cases hv : v = []
    · subst hv
      have := (wasSet k hd).mp hl
      simp [this]
    · have := setVals k v hl hv
      rw [hd] at this
      cases this

theorem msg_set_contains (k tail : Bytes) :
    hasSeg (str2b "repetitive SET mutation")
      (str2b "repetitive SET mutation. The key '" ++ k ++ tail) = true := by
  have hsplit : str2b "repetitive SET mutation. The key '"
      = str2b "repetitive SET mutation" ++ str2b ". The key '" := by decide
  rw [hsplit, List.append_assoc, List.append_assoc]
  exact hasSeg_of_isLead (isLead_append _ _)

theorem msg_del_contains (k tail : Bytes) :
    hasSeg (str2b "repetitive DEL mutation")
      (str2b "repetitive DEL mutation. The key '" ++ k ++ tail) = true := by
  have hsplit : str2b "repetitive DEL mutation. The key '"
      = str2b "repetitive DEL mutation" ++ str2b ". The key '" := by decide
  rw [hsplit, List.append_assoc, List.append_assoc]
  exact hasSeg_of_isLead (isLead_append _ _)

theorem mutSet_snd (m : Mutations) (k v : Bytes) :
    (m.Set k v).2 =
      if m.hasCb then
        if v ≠ [] then
          if (lookupA m.set k).isSome then [MutErr.repSetAlreadySet k]
          else if memB m.del k then [MutErr.repSetAlreadyDeleted k]
          else []
        else
          if memB m.del k then [MutErr.repDelAlreadyDeleted k] else []
      else [] := by
  by_cases hv : v = [] <;> simp [Mutations.Set, hv]

/-- Claim C2: with a no-double-booking callback configured, `Set(k, v)` with
`v` nonempty invokes the callback with a "repetitive SET mutation" error when
`k` has a pending SET or a pending DEL; `Set(k, nil)` invokes it with a
"repetitive DEL mutation" error when `k` has a pending DEL; and the callback
is invoked in no other case (in particular a first `Set(k, nil)` over a
pending SET is not an error). -/
theorem c2_mutations_double_booking {m : Mutations} {ops : List (Bytes × Bytes)}
    (h : MutReach m ops) (hcb : m.hasCb = true) (k v : Bytes) :
    (v ≠ [] → pendingSet m k ∨ pendingDel m k →
      ∃ e ∈ (m.Set k v).2, hasSeg (str2b "repetitive SET mutation") e.message = true)
    ∧ (v = [] → pendingDel m k →
      ∃ e ∈ (m.Set k v).2, hasSeg (str2b "repetitive DEL mutation") e.message = true)
    ∧ (¬ (v ≠ [] ∧ (pendingSet m k ∨ pendingDel m k)) → ¬ (v = [] ∧ pendingDel m k) →
      (m.Set k v).2 = []) := by
  obtain ⟨_, _, marker, _, _⟩ := mutReach_inv h
  refine ⟨?_, ?_, ?_⟩
  · intro hv hpd
    rw [mutSet_snd, hcb, if_pos rfl, if_pos hv]
    cases his : (lookupA m.set k).isSome with
    | true =>
      refine ⟨MutErr.repSetAlreadySet k, by simp, ?_⟩
      exact msg_set_contains k _
    | false =>
      have hd : memB m.del k = true := by
        rcases hpd with ⟨w, hw, _⟩ | hd
        · rw [hw] at his; cases his
        · exact hd
      rw [hd]
      refine ⟨MutErr.repSetAlreadyDeleted k, by simp [his], ?_⟩
      exact msg_set_contains k _
  · intro hv hd
    subst hv
    rw [mutSet_snd, hcb, if_pos rfl, if_neg (by simp), hd]
    exact ⟨MutErr.repDelAlreadyDeleted k, by simp, msg_del_contains k _⟩
  · intro h1 h2
    rw [mutSet_snd, hcb, if_pos rfl]
    by_cases hv : v = []
    · subst hv
      have hd : memB m.del k = false := by
        cases hd : memB m.del k with
        | false => rfl
        | true => exact absurd ⟨rfl, hd⟩ h2
      simp [hd]
    · push_neg at h1
      obtain ⟨hnps, hnpd⟩ := h1 hv
      have hd : memB m.del k = false := by
        cases hd : memB m.del k with
        | false => rfl
        | true => exact absurd hd hnpd
      have his : (lookupA m.set k).isSome = false := by
        rcases hl : lookupA m.set k with _ | w
        · rfl
        · exfalso
          by_cases hw : w = []
          · subst hw
            rw [marker k hl] at hd; cases hd
          · exact hnps ⟨w, hl, hw⟩
      simp [hv, his, hd]

/-- Witness for C2 at a concrete buffer: a second SET of the same key reports
a repetitive SET mutation. -/
theorem c2_witness :
    ∃ e ∈ (((NewMutations true).Set [97] [49]).1.Set [97] [50]).2,
      hasSeg (str2b "repetitive SET mutation") e.message = true := by
  have h := (c2_mutations_double_booking
      (MutReach.step [97] [49] (MutReach.base true)) rfl [97] [50]).1
  exact h (by decide) (Or.inl ⟨[49], by decide, by decide⟩)

/-- Counterexample for C3 as stated: after `Set("a","1")` then `Set("a",nil)`
the buffer still counts the key in `LenSet` (the set map keeps a nil marker),
so `lenSet` does not stop counting `k`. -/
theorem c3_counterexample :
    (((NewMutations false).Set [97] [49]).1.Set [97] []).1.LenSet = 1
    ∧ ¬ (((NewMutations false).Set [97] [49]).1.Set [97] []).1.LenSet = 0 := by
  constructor <;> decide

/-- Claim C3 (amended): `Set(k, nil)` stages a DEL for `k` and neutralizes any
pending SET for `k`: iteration yields no SET operation for `k`; however the
set map keeps a nil marker for a previously-SET key, so `lenSet` is unchanged
rather than decremented. -/
theorem c3_del_neutralizes_set {m : Mutations} {ops : List (Bytes × Bytes)}
    (h : MutReach m ops) (k : Bytes) :
    memB ((m.Set k []).1).del k = true
    ∧ (∀ v b, (k, some v, b) ∉ ((m.Set k []).1).Iterate)
    ∧ ((m.Set k []).1).LenSet = m.LenSet := by
  obtain ⟨nodup, _, _, _, _⟩ := mutReach_inv h
  have hreach' : MutReach (m.Set k []).1 (ops ++ [(k, [])]) := MutReach.step k [] h
  obtain ⟨nodup', _, _, _, _⟩ := mutReach_inv hreach'
  refine ⟨?_, ?_, ?_⟩
  · have hd : (m.Set k []).1.del = addB m.del k := by rw [mutSet_fst_del]
    rw [hd, memB_addB, if_pos rfl]
  · intro v b hmem
    rcases List.mem_append.mp hmem with hs | hd
    · obtain ⟨k', v', he, hm, hv'⟩ := mem_setEvents_shape hs
      have hk : k' = k := (congrArg Prod.fst he).symm
      subst hk
      have hl := lookupA_eq_of_mem_nodup nodup' hm
      rw [mutSet_del_lookup, if_pos rfl] at hl
      cases his : (lookupA m.set k').isSome with
      | true =>
        rw [if_pos his] at hl
        exact hv' (Option.some.inj hl).symm
      | false =>
        rw [if_neg (by simp [his])] at hl
        cases hl
    · obtain ⟨k', he, _⟩ := mem_delEvents_shape hd
      have : (some v : Option Bytes) = none := congrArg (fun ev => ev.2.1) he
      cases this
  · have hs : (m.Set k []).1.set
        = if (lookupA m.set k).isSome then setA m.set k [] else m.set := by
      rw [mutSet_fst_del]
    unfold Mutations.LenSet
    cases his : (lookupA m.set k).isSome with
    | false => rw [hs, if_neg (by simp [his])]
    | true =>
      obtain ⟨w, hw⟩ := Option.isSome_iff_exists.mp his
      rw [hs, if_pos his]
      simp only [setA, List.length_cons]
      exact length_eraseA_of_some nodup hw

/-- Witness for C3's amended claim at a concrete buffer. -/
theorem c3_witness :
    (((NewMutations false).Set [97] [49]).1.Set [97] []).1.LenSet
      = ((NewMutations false).Set [97] [49]).1.LenSet := by
  exact (c3_del_neutralizes_set (MutReach.step [97] [49] (MutReach.base false)) [97]).2.2

/-- Claim C4: `WriteTo` yields exactly the store obtained by applying the
staged operations directly: pending SETs map to their staged value, pending
DELs are absent, all other keys keep their prior binding. -/
theorem c4_writeTo_contents {m : Mutations} {ops : List (Bytes × Bytes)}
    (h : MutReach m ops) (st : InMemoryKVStore) (k : Bytes) :
    lookupA ((m.WriteTo st).m) k =
      if memB m.del k then none
      else match lookupA m.set k with
           | some v => some v
           | none => lookupA st.m k :=
  writeTo_lookup h st k

/-- Witness for C4 at a concrete buffer and store. -/
theorem c4_witness :
    lookupA ((((NewMutations false).Set [97] [49]).1.WriteTo
      NewInMemoryKVStore).m) [97] = some [49] := by
  have h := c4_writeTo_contents (MutReach.step [97] [49] (MutReach.base false))
    NewInMemoryKVStore [97]
  rw [h]
  decide

/-- Claim C7: for the in-memory store, an empty value is absence: `Set` with an
empty value removes the key, `Get` never returns an empty value, and (for
stores built through the public interface) `Has` agrees with `Get`. -/
theorem c7_kvstore_empty_value {s : InMemoryKVStore} (h : ReachableKV s) (k : Bytes) :
    (s.Set k []).Get k = none ∧ (s.Set k []).Has k = false
    ∧ s.Get k ≠ some [] ∧ (s.Has k = true ↔ s.Get k ≠ none) :=
  ⟨kv_set_empty_get s k, kv_set_empty_has s k, kv_get_ne_some_nil s k, kv_has_iff_get h k⟩

/-- Witness for C7 at a concrete reachable store. -/
theorem c7_witness : (NewInMemoryKVStore.Set [1] [2]).Get [1] ≠ none := by
  have h := (c7_kvstore_empty_value (ReachableKV.step [1] [2] ReachableKV.base) [1]).2.2.2
  exact h.mp (by decide)

/-- Claim C8: `HasWithPrefix` is true iff the store contains a key beginning
with the given byte prefix; the empty prefix matches every key. -/
theorem c8_hasWithPrefix (s : InMemoryKVStore) (p : Bytes) :
    (HasWithPrefix s p = true ↔ ∃ kv ∈ s.m, isLead p kv.1 = true)
    ∧ (HasWithPrefix s [] = true ↔ s.m ≠ []) := by
  constructor
  · exact hasWithPrefix_iff s p
  · rw [hasWithPrefix_iff]
    constructor
    · rintro ⟨kv, hm, _⟩ he
      rw [he] at hm
      simp at hm
    · intro hne
      cases hm : s.m with
      | nil => exact absurd hm hne
      | cons kv t => exact ⟨kv, List.mem_cons_self _ _, isLead_nil _⟩

/-- Claim C9: `Iterate` yields all SET events (nonempty value, `wasSet` true)
before all DEL events (nil value); SET events are exactly the pending SETs,
DEL events are exactly the pending DELs, and the `wasSet` flag of a DEL event
is true iff the key was SET in the same buffer before being deleted. -/
theorem c9_iterate_order {m : Mutations} {ops : List (Bytes × Bytes)}
    (h : MutReach m ops) :
    m.Iterate = setEvents m.set ++ delEvents m.set m.del
    ∧ (∀ ev ∈ setEvents m.set, ∃ k v, ev = (k, some v, true)
        ∧ lookupA m.set k = some v ∧ v ≠ [])
    ∧ (∀ k v, lookupA m.set k = some v → v ≠ [] → (k, some v, true) ∈ setEvents m.set)
    ∧ (∀ ev ∈ delEvents m.set m.del, ∃ k, ev = (k, none, setThenDel ops k)
        ∧ memB m.del k = true)
    ∧ (∀ k, memB m.del k = true → (k, none, setThenDel ops k) ∈ delEvents m.set m.del) := by
  obtain ⟨nodup, _, _, _, _⟩ := mutReach_inv h
  refine ⟨rfl, ?_, ?_, ?_, ?_⟩
  · intro ev hev
    obtain ⟨k, v, he, hm, hv⟩ := mem_setEvents_shape hev
    exact ⟨k, v, he, lookupA_eq_of_mem_nodup nodup hm, hv⟩
  · intro k v hl hv
    exact mem_setEvents (lookupA_mem hl) hv
  · intro ev hev
    obtain ⟨k, he, hm⟩ := mem_delEvents_shape hev
    have hd : memB m.del k = true := memB_iff_mem.mpr hm
    rw [del_flag_eq_setThenDel h hd] at he
    exact ⟨k, he, hd⟩
  · intro k hd
    have := @mem_delEvents m.set _ _ (memB_iff_mem.mp hd)
    rw [del_flag_eq_setThenDel h hd] at this
    exact this

/-- Witness for C9: a key set then deleted is reported as a DEL event with
`wasSet = true`. -/
theorem c9_witness :
    ([97], none, true) ∈ (((NewMutations false).Set [97] [49]).1.Set [97] []).1.Iterate := by
  have h := (c9_iterate_order
      (MutReach.step [97] [] (MutReach.step [97] [49] (MutReach.base false)))).2.2.2.2
    [97] (by decide)
  have he : setThenDel (([] ++ [([97], [49])]) ++ [([97], [])]) [97] = true := by decide
  rw [he] at h
  exact List.mem_append_right _ h

/-- Claim C10 (code bug): `WriteBytes8` accepts data of length 256 (it panics
only above 256) but then writes the length byte `byte(256) = 0`, so reading
the written bytes back yields the empty string, not the original data. -/
theorem c10_writeBytes8_256_breaks_roundtrip :
    WriteBytes8 [] (List.replicate 256 7) = Except.ok ((0 : Nat) :: List.replicate 256 7)
    ∧ ReadBytes8 ((0 : Nat) :: List.replicate 256 7)
        = Except.ok (([] : Bytes), List.replicate 256 7)
    ∧ List.replicate 256 7 ≠ ([] : Bytes) := by
  refine ⟨?_, rfl, by decide⟩
  unfold WriteBytes8
  rw [List.length_replicate, if_neg (by omega)]
  have h0 : (256 : Nat) % 256 = 0 := by omega
  rw [h0]
  rfl

/-- For data of length at most 255 the round-trip does hold. -/
theorem readBytes8_writeBytes8 (d : Bytes) (hd : d.length ≤ 255) :
    WriteBytes8 [] d = Except.ok (d.length % 256 :: d)
    ∧ ReadBytes8 (d.length % 256 :: d) = Except.ok (d, []) := by
  have h256 : d.length % 256 = d.length := Nat.mod_eq_of_lt (by omega)
  constructor
  · unfold WriteBytes8
    rw [if_neg (by omega)]
    rfl
  · rw [h256]
    by_cases h0 : d.length = 0
    · have hnil : d = [] := List.eq_nil_of_length_eq_zero h0
      subst hnil
      rfl
    · show (if d.length = 0 then Except.ok (([] : Bytes), d)
        else if d.length < d.length then Except.error (str2b "EOF")
        else Except.ok (d.take d.length, d.drop d.length)) = Except.ok (d, [])
      rw [if_neg h0, if_neg (by omega)]
      simp


theorem lead_append_drop {p l : Bytes} (h : isLead p l = true) :
    p ++ l.drop p.length = l := by
  obtain ⟨r, rfl⟩ := isLead_iff_exists.mp h
  rw [List.drop_left]

theorem isLead_length_le {p l : Bytes} (h : isLead p l = true) : p.length ≤ l.length := by
  obtain ⟨r, rfl⟩ := isLead_iff_exists.mp h
  simp

theorem isLead_of_append_isLead {a b l : Bytes} (h : isLead (a ++ b) l = true) :
    isLead a l = true := by
  obtain ⟨r, rfl⟩ := isLead_iff_exists.mp h
  rw [List.append_assoc]
  exact isLead_append _ _

theorem isLead_append_iff (q p l : Bytes) :
    isLead (q ++ p) (q ++ l) = isLead p l := by
  induction q with
  | nil => rfl
  | cons a t ih => simp [isLead, ih]

theorem lcp_lead_left (a b : Bytes) : isLead (lcp a b) a = true := by
  induction a generalizing b with
  | nil => cases b <;> rfl
  | cons x ta ih =>
    cases b with
    | nil => rfl
    | cons y tb =>
      by_cases h : x = y
      · subst h; simp [lcp, isLead, ih]
      · simp [lcp, h, isLead]

theorem lcp_lead_right (a b : Bytes) : isLead (lcp a b) b = true := by
  induction a generalizing b with
  | nil => cases b <;> rfl
  | cons x ta ih =>
    cases b with
    | nil => rfl
    | cons y tb =>
      by_cases h : x = y
      · subst h; simp [lcp, isLead, ih]
      · simp [lcp, h, isLead]

theorem lcp_of_lead {p l : Bytes} (h : isLead p l = true) : lcp p l = p := by
  induction p generalizing l with
  | nil => cases l <;> rfl
  | cons a t ih =>
    cases l with
    | nil => simp [isLead] at h
    | cons b m =>
      simp only [isLead, Bool.and_eq_true, decide_eq_true_eq] at h
      obtain ⟨rfl, h2⟩ := h
      simp [lcp, ih h2]

theorem drop_lcp_left_nil_iff {pf k : Bytes} :
    pf.drop (lcp pf k).length = [] ↔ isLead pf k = true := by
  constructor
  · intro h
    have hdec : lcp pf k ++ pf.drop (lcp pf k).length = pf :=
      lead_append_drop (lcp_lead_left pf k)
    rw [h, List.append_nil] at hdec
    rw [← hdec]
    exact lcp_lead_right pf k
  · intro h
    rw [lcp_of_lead h, List.drop_length]

theorem lcp_heads_ne {pf k : Bytes} {pd d : Nat} {pr kr : Bytes}
    (hp : pf.drop (lcp pf k).length = pd :: pr)
    (hk : k.drop (lcp pf k).length = d :: kr) : pd ≠ d := by
  induction pf generalizing k with
  | nil => simp [lcp] at hp
  | cons a ta ih =>
    cases k with
    | nil => simp [lcp] at hk
    | cons b tb =>
      by_cases h : a = b
      · subst h
        simp only [lcp, if_pos rfl, List.length_cons, List.drop_succ_cons] at hp hk
        exact ih hp hk
      · simp only [lcp, h, if_false, List.length_nil, List.drop_zero] at hp hk
        injection hp with h1 h2
        injection hk with h3 h4
        subst h1
        subst h3
        exact h

theorem trie_eta (t : Trie) : Trie.node t.pf t.ch t.term = t := by
  cases t; rfl

theorem get_node (pf : List Nat) (ch : List (Nat × Trie)) (term : Option Bytes)
    (k : List Nat) : (Trie.node pf ch term).get k = getA pf ch term k := rfl

theorem getA_pf (pf : List Nat) (ch : List (Nat × Trie)) (term : Option Bytes) :
    getA pf ch term pf = term := by
  induction pf with
  | nil => simp [getA]
  | cons x p ih => simp [getA, ih]

theorem getA_child_none {ch : List (Nat × Trie)} {d : Nat} (h : chLookup ch d = none)
    (pf : List Nat) (term : Option Bytes) (r : List Nat) :
    getA pf ch term (pf ++ d :: r) = none := by
  induction pf with
  | nil => simp [getA, h]
  | cons x p ih => simp [getA, ih]

theorem getA_child_some {ch : List (Nat × Trie)} {d : Nat} {c : Trie}
    (h : chLookup ch d = some c) (pf : List Nat) (term : Option Bytes) (r : List Nat) :
    getA pf ch term (pf ++ d :: r) = c.get r := by
  induction pf with
  | nil => simp [getA, h]; rfl
  | cons x p ih => simp [getA, ih]

theorem getA_not_lead {pf k : List Nat} (h : isLead pf k = false)
    (ch : List (Nat × Trie)) (term : Option Bytes) :
    getA pf ch term k = none := by
  induction pf generalizing k with
  | nil => simp [isLead] at h
  | cons x p ih =>
    cases k with
    | nil => simp [getA]
    | cons y kk =>
      simp only [isLead, Bool.and_eq_false_iff] at h
      rcases h with h | h
      · have : ¬ x = y := by simpa using h
        simp [getA, this]
      · by_cases hxy : x = y
        · simp [getA, hxy, ih h]
        · simp [getA, hxy]

theorem getA_append (q p : List Nat) (ch : List (Nat × Trie)) (term : Option Bytes)
    (r : List Nat) : getA (q ++ p) ch term (q ++ r) = getA p ch term r := by
  induction q with
  | nil => rfl
  | cons x t ih => simp [getA, ih]

theorem getA_leaf (p : List Nat) (v : Bytes) (r : List Nat) :
    getA p [] (some v) r = if r = p then some v else none := by
  induction p generalizing r with
  | nil =>
    cases r with
    | nil => simp [getA]
    | cons d rr => simp [getA, chLookup]
  | cons x pp ih =>
    cases r with
    | nil => simp [getA]
    | cons y rr =>
      by_cases hxy : x = y
      · subst hxy
        simp [getA, ih]
      · have hyx : ¬ y = x := fun h => hxy h.symm
        simp [getA, hxy, hyx]

theorem ins_terminal {pf k : List Nat} (ch : List (Nat × Trie)) (term : Option Bytes)
    (v : Bytes) (h1 : pf.drop (lcp pf k).length = []) (h2 : k.drop (lcp pf k).length = []) :
    (Trie.node pf ch term).ins k v = Trie.node pf ch (some v) := by
  rw [Trie.ins]
  split
  · rfl
  · rename_i heq1 heq2
    rw [h2] at heq2
    cases heq2
  · rename_i heq1 heq2
    rw [h1] at heq1
    cases heq1
  · rename_i heq1 heq2
    rw [h1] at heq1
    cases heq1

theorem ins_descend {pf k : List Nat} {d : Nat} {kr : List Nat} {c : Trie}
    (ch : List (Nat × Trie)) (term : Option Bytes) (v : Bytes)
    (hk : k.drop (lcp pf k).length = d :: kr)
    (hp : pf.drop (lcp pf k).length = [])
    (hc : chLookup ch d = some c) :
    (Trie.node pf ch term).ins k v = .node pf (chUpdate ch d (c.ins kr v)) term := by
  rw [Trie.ins]
  split
  · rename_i heq1 heq2
    rw [hk] at heq2
    cases heq2
  · rename_i d' kr' heq1 heq2
    rw [hk] at heq2
    injection heq2 with e1 e2
    subst e1
    subst e2
    rw [hc]
  · rename_i heq1 heq2
    rw [hp] at heq1
    cases heq1
  · rename_i heq1 heq2
    rw [hp] at heq1
    cases heq1

theorem ins_extend {pf k : List Nat} {d : Nat} {kr : List Nat}
    (ch : List (Nat × Trie)) (term : Option Bytes) (v : Bytes)
    (hk : k.drop (lcp pf k).length = d :: kr)
    (hp : pf.drop (lcp pf k).length = [])
    (hc : chLookup ch d = none) :
    (Trie.node pf ch term).ins k v
      = .node pf (chUpdate ch d (.node kr [] (some v))) term := by
  rw [Trie.ins]
  split
  · rename_i heq1 heq2
    rw [hk] at heq2
    cases heq2
  · rename_i d' kr' heq1 heq2
    rw [hk] at heq2
    injection heq2 with e1 e2
    subst e1
    subst e2
    rw [hc]
  · rename_i heq1 heq2
    rw [hp] at heq1
    cases heq1
  · rename_i heq1 heq2
    rw [hp] at heq1
    cases heq1

theorem ins_split_upper {pf k : List Nat} {pd : Nat} {pr : List Nat}
    (ch : List (Nat × Trie)) (term : Option Bytes) (v : Bytes)
    (hk : k.drop (lcp pf k).length = [])
    (hp : pf.drop (lcp pf k).length = pd :: pr) :
    (Trie.node pf ch term).ins k v
      = .node (lcp pf k) [(pd, .node pr ch term)] (some v) := by
  rw [Trie.ins]
  split
  · rename_i heq1 heq2
    rw [hp] at heq1
    cases heq1
  · rename_i d' kr' heq1 heq2
    rw [hp] at heq1
    cases heq1
  · rename_i pd' pr' heq1 heq2
    rw [hp] at heq1
    injection heq1 with e1 e2
    subst e1
    subst e2
    rfl
  · rename_i pd' pr' d' kr' heq1 heq2
    rw [hk] at heq2
    cases heq2

theorem ins_split_two {pf k : List Nat} {pd : Nat} {pr : List Nat} {d : Nat} {kr : List Nat}
    (ch : List (Nat × Trie)) (term : Option Bytes) (v : Bytes)
    (hk : k.drop (lcp pf k).length = d :: kr)
    (hp : pf.drop (lcp pf k).length = pd :: pr) :
    (Trie.node pf ch term).ins k v
      = .node (lcp pf k)
          (twoCh pd (.node pr ch term) d (.node kr [] (some v))) none := by
  rw [Trie.ins]
  split
  · rename_i heq1 heq2
    rw [hp] at heq1
    cases heq1
  · rename_i d' kr' heq1 heq2
    rw [hp] at heq1
    cases heq1
  · rename_i pd' pr' heq1 heq2
    rw [hk] at heq2
    cases heq2
  · rename_i pd' pr' d' kr' heq1 heq2
    rw [hp] at heq1
    rw [hk] at heq2
    injection heq1 with e1 e2
    injection heq2 with e3 e4
    subst e1
    subst e2
    subst e3
    subst e4
    rfl

theorem getA_term_ne {k' p : List Nat} (h : k' ≠ p) (ch : List (Nat × Trie))
    (t1 t2 : Option Bytes) : getA p ch t1 k' = getA p ch t2 k' := by
  induction p generalizing k' with
  | nil =>
    cases k' with
    | nil => exact absurd rfl h
    | cons d r => simp [getA]
  | cons x pp ih =>
    cases k' with
    | nil => simp [getA]
    | cons y r =>
      by_cases hxy : x = y
      · subst hxy
        have : r ≠ pp := fun he => h (by rw [he])
        simp [getA, ih this]
      · simp [getA, hxy]

theorem self_ne_append_cons (p : List Nat) (d : Nat) (r : List Nat) :
    p ≠ p ++ d :: r := by
  intro h
  have := congrArg List.length h
  simp at this

theorem append_cons_inj_iff (p : List Nat) (d d' : Nat) (r r' : List Nat) :
    p ++ d :: r = p ++ d' :: r' ↔ d = d' ∧ r = r' := by
  constructor
  · intro h
    have h2 := List.append_cancel_left h
    injection h2 with e1 e2
    exact ⟨e1, e2⟩
  · rintro ⟨rfl, rfl⟩
    rfl

theorem lead_longer_false (a : List Nat) (x : Nat) (b : List Nat) :
    isLead (a ++ x :: b) a = false := by
  cases h : isLead (a ++ x :: b) a with
  | false => rfl
  | true =>
    have := isLead_length_le h
    simp at this

theorem isLead_false_of_head {L k' : List Nat} (hlead : isLead L k' = false)
    (x : Nat) (b : List Nat) : isLead (L ++ x :: b) k' = false := by
  cases hq : isLead (L ++ x :: b) k' with
  | false => rfl
  | true => rw [isLead_of_append_isLead hq] at hlead; cases hlead

theorem chLookup_single (a : Nat) (b : Trie) (x : Nat) :
    chLookup [(a, b)] x = if a = x then some b else none := by
  simp [chLookup]

theorem chLookup_chUpdate (l : List (Nat × Trie)) (d : Nat) (c : Trie) (x : Nat) :
    chLookup (chUpdate l d c) x = if d = x then some c else chLookup l x := by
  induction l with
  | nil => simp [chUpdate, chLookup]
  | cons p t ih =>
    obtain ⟨d0, c0⟩ := p
    by_cases h1 : d < d0
    · simp only [chUpdate, if_pos h1]
      rfl
    · by_cases h2 : d = d0
      · subst h2
        simp only [chUpdate, if_neg h1, if_pos rfl]
        by_cases hx : d = x
        · simp [chLookup, hx]
        · simp [chLookup, hx]
      · simp only [chUpdate, if_neg h1, if_neg h2]
        by_cases h0 : d0 = x
        · subst h0
          simp [chLookup, fun h : d = d0 => h2 h]
        · simp [chLookup, h0, ih]

theorem chLookup_twoCh {d1 d2 : Nat} (hne : d1 ≠ d2) (c1 c2 : Trie) (x : Nat) :
    chLookup (twoCh d1 c1 d2 c2) x
      = if d1 = x then some c1 else if d2 = x then some c2 else none := by
  unfold twoCh
  by_cases h12 : d1 < d2
  · simp [h12, chLookup]
  · simp only [h12, if_false]
    by_cases hx2 : d2 = x
    · subst hx2
      simp [chLookup, fun h : d1 = d2 => hne h]
    · by_cases hx1 : d1 = x
      · subst hx1
        simp [chLookup, hx2]
      · simp [chLookup, hx1, hx2]

theorem get_split_upper_eval (L : List Nat) (pd : Nat) (pr : List Nat)
    (ch : List (Nat × Trie)) (term : Option Bytes) (v : Bytes) (k' : List Nat) :
    (Trie.node L [(pd, .node pr ch term)] (some v)).get k'
      = if k' = L then some v else (Trie.node (L ++ pd :: pr) ch term).get k' := by
  by_cases hlead : isLead L k' = true
  · obtain ⟨rest, rfl⟩ := isLead_iff_exists.mp hlead
    cases rest with
    | nil =>
      rw [List.append_nil, get_node, getA_pf, if_pos rfl]
    | cons d' r' =>
      have hcond : ¬ (L ++ d' :: r' = L) := fun h => by
        have := congrArg List.length h; simp at this
      rw [if_neg hcond, get_node L _ _ _, get_node (L ++ pd :: pr) ch term _]
      by_cases hd : pd = d'
      · subst hd
        rw [getA_child_some (c := .node pr ch term) (by rw [chLookup_single, if_pos rfl])
          L (some v) r']
        rw [getA_append L (pd :: pr) ch term (pd :: r')]
        show getA (Trie.node pr ch term).pf (Trie.node pr ch term).ch
          (Trie.node pr ch term).term r' = _
        simp only [getA]
        rfl
      · rw [getA_child_none (by rw [chLookup_single, if_neg hd]) L (some v) r']
        rw [getA_append L (pd :: pr) ch term (d' :: r')]
        simp only [getA]
        rw [if_neg hd]
  · simp only [Bool.not_eq_true] at hlead
    have hcond : ¬ (k' = L) := fun he => by rw [he, isLead_refl] at hlead; cases hlead
    rw [if_neg hcond, get_node, getA_not_lead hlead, get_node,
      getA_not_lead (isLead_false_of_head hlead pd pr)]

theorem get_split_two_eval (L : List Nat) (pd : Nat) (pr : List Nat) (d : Nat)
    (kr : List Nat) (hne : pd ≠ d) (ch : List (Nat × Trie)) (term : Option Bytes)
    (v : Bytes) (k' : List Nat) :
    (Trie.node L (twoCh pd (.node pr ch term) d (.node kr [] (some v))) none).get k'
      = if k' = L ++ d :: kr then some v
        else (Trie.node (L ++ pd :: pr) ch term).get k' := by
  by_cases hlead : isLead L k' = true
  · obtain ⟨rest, rfl⟩ := isLead_iff_exists.mp hlead
    cases rest with
    | nil =>
      rw [List.append_nil, if_neg (self_ne_append_cons L d kr), get_node, getA_pf,
        get_node, getA_not_lead (by rw [lead_longer_false])]
    | cons d' r' =>
      rw [get_node L _ _ _, get_node (L ++ pd :: pr) ch term _]
      by_cases hdpd : pd = d'
      · subst hdpd
        have hcond : ¬ (L ++ pd :: r' = L ++ d :: kr) := by
          rw [append_cons_inj_iff]
          rintro ⟨h1, -⟩
          exact hne h1
        rw [if_neg hcond]
        have hl : chLookup (twoCh pd (.node pr ch term) d (.node kr [] (some v))) pd
            = some (.node pr ch term) := by
          rw [chLookup_twoCh hne, if_pos rfl]
        rw [getA_child_some hl L none r']
        rw [getA_append L (pd :: pr) ch term (pd :: r')]
        show getA (Trie.node pr ch term).pf (Trie.node pr ch term).ch
          (Trie.node pr ch term).term r' = _
        simp only [getA]
        rfl
      · by_cases hdd : d = d'
        · subst hdd
          have hl : chLookup (twoCh pd (.node pr ch term) d (.node kr [] (some v))) d
              = some (.node kr [] (some v)) := by
            rw [chLookup_twoCh hne, if_neg hne, if_pos rfl]
          rw [getA_child_some hl L none r']
          rw [getA_append L (pd :: pr) ch term (d :: r')]
          show (Trie.node kr [] (some v)).get r' = _
          rw [get_node, getA_leaf]
          simp only [getA]
          rw [if_neg hdpd]
          by_cases hr : r' = kr
          · rw [if_pos hr, if_pos (by rw [hr])]
          · rw [if_neg hr, if_neg (by rw [append_cons_inj_iff]; rintro ⟨-, h⟩; exact hr h)]
        · have hl : chLookup (twoCh pd (.node pr ch term) d (.node kr [] (some v))) d'
              = none := by
            rw [chLookup_twoCh hne, if_neg hdpd, if_neg hdd]
          rw [getA_child_none hl L none r']
          rw [getA_append L (pd :: pr) ch term (d' :: r')]
          have hcond : ¬ (L ++ d' :: r' = L ++ d :: kr) := by
            rw [append_cons_inj_iff]
            rintro ⟨h1, -⟩
            exact hdd h1.symm
          rw [if_neg hcond]
          simp only [getA]
          rw [if_neg hdpd]
  · simp only [Bool.not_eq_true] at hlead
    have hcond : ¬ (k' = L ++ d :: kr) := fun he => by
      rw [he, isLead_append] at hlead; cases hlead
    rw [if_neg hcond, get_node, getA_not_lead hlead, get_node,
      getA_not_lead (isLead_false_of_head hlead pd pr)]

theorem get_ins (t : Trie) (k : List Nat) (v : Bytes) :
    ∀ k', (t.ins k v).get k' = if k' = k then some v else t.get k' := by
  induction t, k, v using Trie.ins.induct with
  | case1 k v p ch term hk hp =>
    have eL : lcp p k = p := by
      have e1 := lead_append_drop (lcp_lead_left p k)
      rw [hp, List.append_nil] at e1
      exact e1
    have hkp : k = p := by
      have e2 := lead_append_drop (lcp_lead_right p k)
      rw [hk, List.append_nil] at e2
      rw [← e2, eL]
    rw [ins_terminal ch term v hp hk]
    intro k'
    rw [hkp]
    by_cases hk' : k' = p
    · subst hk'
      rw [get_node, getA_pf, if_pos rfl]
    · rw [if_neg hk', get_node, get_node]
      exact getA_term_ne hk' ch (some v) term
  | case2 k v p ch term d kr hk hp c hc ih =>
    have eL : lcp p k = p := by
      have e1 := lead_append_drop (lcp_lead_left p k)
      rw [hp, List.append_nil] at e1
      exact e1
    have hkk : k = p ++ d :: kr := by
      have e2 := lead_append_drop (lcp_lead_right p k)
      rw [hk, eL] at e2
      exact e2.symm
    rw [ins_descend ch term v hk hp hc]
    intro k'
    rw [hkk]
    by_cases hlead : isLead p k' = true
    · obtain ⟨rest, rfl⟩ := isLead_iff_exists.mp hlead
      cases rest with
      | nil =>
        rw [List.append_nil, if_neg (self_ne_append_cons p d kr),
          get_node p _ term p, getA_pf, get_node p ch term p, getA_pf]
      | cons d' r' =>
        by_cases hd : d = d'
        · subst hd
          have hcc : chLookup (chUpdate ch d (c.ins kr v)) d = some (c.ins kr v) := by
            rw [chLookup_chUpdate, if_pos rfl]
          rw [get_node p _ term _, getA_child_some hcc p term r', ih r',
            get_node p ch term _, getA_child_some hc p term r']
          by_cases hr : r' = kr
          · rw [if_pos hr, if_pos (by rw [hr])]
          · rw [if_neg hr, if_neg (by rw [append_cons_inj_iff]; rintro ⟨-, h⟩; exact hr h)]
        · have hcc : chLookup (chUpdate ch d (c.ins kr v)) d' = chLookup ch d' := by
            rw [chLookup_chUpdate, if_neg hd]
          have hcond : ¬ (p ++ d' :: r' = p ++ d :: kr) := by
            rw [append_cons_inj_iff]
            rintro ⟨h1, -⟩
            exact hd h1.symm
          rw [if_neg hcond]
          cases hl : chLookup ch d' with
          | none =>
            rw [get_node p _ term _, getA_child_none (hcc.trans hl) p term r',
              get_node p ch term _, getA_child_none hl p term r']
          | some c0 =>
            rw [get_node p _ term _, getA_child_some (hcc.trans hl) p term r',
              get_node p ch term _, getA_child_some hl p term r']
    · simp only [Bool.not_eq_true] at hlead
      have hcond : ¬ (k' = p ++ d :: kr) := fun he => by
        rw [he, isLead_append] at hlead; cases hlead
      rw [if_neg hcond, get_node p _ term k', getA_not_lead hlead,
        get_node p ch term k', getA_not_lead hlead]
  | case3 k v p ch term d kr hk hp hc =>
    have eL : lcp p k = p := by
      have e1 := lead_append_drop (lcp_lead_left p k)
      rw [hp, List.append_nil] at e1
      exact e1
    have hkk : k = p ++ d :: kr := by
      have e2 := lead_append_drop (lcp_lead_right p k)
      rw [hk, eL] at e2
      exact e2.symm
    rw [ins_extend ch term v hk hp hc]
    intro k'
    rw [hkk]
    by_cases hlead : isLead p k' = true
    · obtain ⟨rest, rfl⟩ := isLead_iff_exists.mp hlead
      cases rest with
      | nil =>
        rw [List.append_nil, if_neg (self_ne_append_cons p d kr),
          get_node p _ term p, getA_pf, get_node p ch term p, getA_pf]
      | cons d' r' =>
        by_cases hd : d = d'
        · subst hd
          have hcc : chLookup (chUpdate ch d (Trie.node kr [] (some v))) d
              = some (.node kr [] (some v)) := by
            rw [chLookup_chUpdate, if_pos rfl]
          rw [get_node p _ term _, getA_child_some hcc p term r',
            get_node p ch term _, getA_child_none hc p term r',
            get_node kr [] (some v) r', getA_leaf]
          by_cases hr : r' = kr
          · rw [if_pos hr, if_pos (by rw [hr])]
          · rw [if_neg hr, if_neg (by rw [append_cons_inj_iff]; rintro ⟨-, h⟩; exact hr h)]
        · have hcc : chLookup (chUpdate ch d (Trie.node kr [] (some v))) d'
              = chLookup ch d' := by
            rw [chLookup_chUpdate, if_neg hd]
          have hcond : ¬ (p ++ d' :: r' = p ++ d :: kr) := by
            rw [append_cons_inj_iff]
            rintro ⟨h1, -⟩
            exact hd h1.symm
          rw [if_neg hcond]
          cases hl : chLookup ch d' with
          | none =>
            rw [get_node p _ term _, getA_child_none (hcc.trans hl) p term r',
              get_node p ch term _, getA_child_none hl p term r']
          | some c0 =>
            rw [get_node p _ term _, getA_child_some (hcc.trans hl) p term r',
              get_node p ch term _, getA_child_some hl p term r']
    · simp only [Bool.not_eq_true] at hlead
      have hcond : ¬ (k' = p ++ d :: kr) := fun he => by
        rw [he, isLead_append] at hlead; cases hlead
      rw [if_neg hcond, get_node p _ term k', getA_not_lead hlead,
        get_node p ch term k', getA_not_lead hlead]
  | case4 k v p ch term pd pr hk hp =>
    have ep : lcp p k ++ pd :: pr = p := by
      have e1 := lead_append_drop (lcp_lead_left p k)
      rw [hp] at e1
      exact e1
    have ekk : k = lcp p k := by
      have e2 := lead_append_drop (lcp_lead_right p k)
      rw [hk, List.append_nil] at e2
      exact e2.symm
    rw [ins_split_upper ch term v hk hp]
    intro k'
    rw [get_split_upper_eval, ep, ← ekk]
  | case5 k v p ch term pd pr d kr hk hp =>
    have hne : pd ≠ d := lcp_heads_ne hp hk
    have ep : lcp p k ++ pd :: pr = p := by
      have e1 := lead_append_drop (lcp_lead_left p k)
      rw [hp] at e1
      exact e1
    have ek : lcp p k ++ d :: kr = k := by
      have e2 := lead_append_drop (lcp_lead_right p k)
      rw [hk] at e2
      exact e2
    rw [ins_split_two ch term v hk hp]
    intro k'
    rw [get_split_two_eval _ _ _ _ _ hne, ep, ek]

theorem delTerm_none (p : List Nat) (ch : List (Nat × Trie)) :
    delTerm p ch none = (some (.node p ch none), false) := rfl

theorem delTerm_leaf (p : List Nat) (val : Bytes) :
    delTerm p [] (some val) = (none, true) := rfl

theorem delTerm_merge (p : List Nat) (val : Bytes) (d : Nat) (c : Trie) :
    delTerm p [(d, c)] (some val)
      = (some (.node (p ++ d :: c.pf) c.ch c.term), true) := rfl

theorem delTerm_clear (p : List Nat) (val : Bytes) (x : List (Nat × Trie))
    (h0 : x ≠ []) (h1 : ∀ d c, x ≠ [(d, c)]) :
    delTerm p x (some val) = (some (.node p x none), true) := by
  cases x with
  | nil => exact absurd rfl h0
  | cons a t =>
    cases t with
    | nil => exact absurd rfl (h1 a.1 a.2)
    | cons b r => rfl

theorem delGone_merge {p : List Nat} {ch : List (Nat × Trie)} {d d' : Nat} {c' : Trie}
    {b : Bool} (hr : chRemove ch d = [(d', c')]) :
    delGone p ch none d b = (some (.node (p ++ d' :: c'.pf) c'.ch c'.term), b) := by
  simp only [delGone, hr]

theorem delGone_empty {p : List Nat} {ch : List (Nat × Trie)} {d : Nat} {b : Bool}
    (hr : chRemove ch d = []) :
    delGone p ch none d b = (none, b) := by
  simp only [delGone, hr]

theorem delGone_keep {p : List Nat} {ch : List (Nat × Trie)} {tm : Option Bytes}
    {d : Nat} {b : Bool}
    (hno : ¬ (tm = none ∧ chRemove ch d = []))
    (hns : ∀ d' c', ¬ (tm = none ∧ chRemove ch d = [(d', c')])) :
    delGone p ch tm d b = (some (.node p (chRemove ch d) tm), b) := by
  cases tm with
  | some v =>
    simp only [delGone]
  | none =>
    cases hch : chRemove ch d with
    | nil => exact absurd ⟨rfl, hch⟩ hno
    | cons a t =>
      cases t with
      | nil => exact absurd ⟨rfl, hch⟩ (hns a.1 a.2)
      | cons a2 t2 => simp only [delGone, hch]

theorem del_terminal {p k : List Nat} (ch : List (Nat × Trie)) (term : Option Bytes)
    (hk : k.drop (lcp p k).length = []) (hp : p.drop (lcp p k).length = []) :
    (Trie.node p ch term).del k = delTerm p ch term := by
  rw [Trie.del]
  split
  · rfl
  · exfalso; simp_all
  · exfalso; simp_all

theorem del_not_found {p k : List Nat} {d : Nat} {kr : List Nat}
    (ch : List (Nat × Trie)) (term : Option Bytes)
    (hk : k.drop (lcp p k).length = d :: kr) (hp : p.drop (lcp p k).length = [])
    (hc : chLookup ch d = none) :
    (Trie.node p ch term).del k = (some (.node p ch term), false) := by
  rw [Trie.del]
  split
  · exfalso; simp_all
  · rename_i d0 kr0 heq1 heq2
    rw [hk] at heq2
    injection heq2 with e1 e2
    subst e1
    subst e2
    simp only [hc]
  · exfalso; simp_all

theorem del_replace {p k : List Nat} {d : Nat} {kr : List Nat} {c c' : Trie} {b : Bool}
    (ch : List (Nat × Trie)) (term : Option Bytes)
    (hk : k.drop (lcp p k).length = d :: kr) (hp : p.drop (lcp p k).length = [])
    (hc : chLookup ch d = some c) (hd : c.del kr = (some c', b)) :
    (Trie.node p ch term).del k = (some (.node p (chUpdate ch d c') term), b) := by
  rw [Trie.del]
  split
  · exfalso; simp_all
  · rename_i d0 kr0 heq1 heq2
    rw [hk] at heq2
    injection heq2 with e1 e2
    subst e1
    subst e2
    simp only [hc, hd]
  · exfalso; simp_all

theorem del_gone {p k : List Nat} {d : Nat} {kr : List Nat} {c : Trie} {b : Bool}
    (ch : List (Nat × Trie)) (term : Option Bytes)
    (hk : k.drop (lcp p k).length = d :: kr) (hp : p.drop (lcp p k).length = [])
    (hc : chLookup ch d = some c) (hd : c.del kr = (none, b)) :
    (Trie.node p ch term).del k = delGone p ch term d b := by
  rw [Trie.del]
  split
  · exfalso; simp_all
  · rename_i d0 kr0 heq1 heq2
    rw [hk] at heq2
    injection heq2 with e1 e2
    subst e1
    subst e2
    simp only [hc, hd]
  · exfalso; simp_all

theorem del_split_arm {p k : List Nat} {head : Nat} {tail : List Nat}
    (ch : List (Nat × Trie)) (term : Option Bytes)
    (hp : p.drop (lcp p k).length = head :: tail) :
    (Trie.node p ch term).del k = (some (.node p ch term), false) := by
  rw [Trie.del]
  split
  · exfalso; simp_all
  · exfalso; simp_all
  · rfl

theorem chLookup_chRemove_ne {x d : Nat} (hne : x ≠ d) (ch : List (Nat × Trie)) :
    chLookup (chRemove ch d) x = chLookup ch x := by
  induction ch with
  | nil => rfl
  | cons a t ih =>
    obtain ⟨d0, c0⟩ := a
    by_cases h0 : d0 = d
    · subst h0
      have : ¬ d0 = x := fun h => hne (h.symm)
      simp [chRemove, chLookup, this, ih]
    · by_cases hx : d0 = x
      · simp [chRemove, h0, chLookup, hx, hne]
      · simp [chRemove, h0, chLookup, hx, ih]

theorem chLookup_chRemove_self (ch : List (Nat × Trie)) (d : Nat) :
    chLookup (chRemove ch d) d = none := by
  induction ch with
  | nil => rfl
  | cons a t ih =>
    obtain ⟨d0, c0⟩ := a
    by_cases h0 : d0 = d
    · simp [chRemove, h0, ih]
    · simp [chRemove, h0, chLookup, ih]

theorem getO_none (k : List Nat) : getO none k = none := rfl

theorem getO_some (t : Trie) (k : List Nat) : getO (some t) k = t.get k := rfl

theorem get_merge_eval (p : List Nat) (d : Nat) (c : Trie) (k' : List Nat) :
    (Trie.node (p ++ d :: c.pf) c.ch c.term).get k' = getA p [(d, c)] none k' := by
  by_cases hlead : isLead p k' = true
  · obtain ⟨rest, rfl⟩ := isLead_iff_exists.mp hlead
    cases rest with
    | nil =>
      rw [List.append_nil, get_node, getA_not_lead (lead_longer_false p d c.pf), getA_pf]
    | cons d' r' =>
      rw [get_node]
      by_cases hd : d = d'
      · subst hd
        rw [getA_child_some (c := c) (by rw [chLookup_single, if_pos rfl]) p none r']
        have e1 : p ++ d :: c.pf = (p ++ [d]) ++ c.pf := by simp
        have e2 : p ++ d :: r' = (p ++ [d]) ++ r' := by simp
        rw [e1, e2, getA_append]
        rfl
      · rw [getA_child_none (by rw [chLookup_single, if_neg hd]) p none r']
        have : isLead (p ++ d :: c.pf) (p ++ d' :: r') = false := by
          rw [isLead_append_iff p (d :: c.pf) (d' :: r')]
          simp [isLead, hd]
        rw [getA_not_lead this]
  · simp only [Bool.not_eq_true] at hlead
    rw [get_node, getA_not_lead (isLead_false_of_head hlead d c.pf),
      getA_not_lead hlead]

theorem delTerm_get (p : List Nat) (ch : List (Nat × Trie)) (term : Option Bytes)
    (k' : List Nat) :
    getO (delTerm p ch term).1 k' = if k' = p then none else getA p ch term k' := by
  cases term with
  | none =>
    rw [delTerm_none]
    by_cases hk' : k' = p
    · subst hk'
      rw [if_pos rfl, getO_some, get_node, getA_pf]
    · rw [if_neg hk', getO_some, get_node]
  | some v =>
    cases ch with
    | nil =>
      rw [delTerm_leaf]
      by_cases hk' : k' = p
      · rw [if_pos hk', getO_none]
      · rw [if_neg hk', getO_none, getA_leaf, if_neg hk']
    | cons a t =>
      cases t with
      | nil =>
        obtain ⟨d, c⟩ := a
        rw [delTerm_merge, getO_some, get_merge_eval]
        by_cases hk' : k' = p
        · subst hk'
          rw [if_pos rfl, getA_pf]
        · rw [if_neg hk']
          exact getA_term_ne hk' [(d, c)] none (some v)
      | cons b r =>
        rw [delTerm_clear p v _ (by simp) (by simp), getO_some, get_node]
        by_cases hk' : k' = p
        · subst hk'
          rw [if_pos rfl, getA_pf]
        · rw [if_neg hk']
          exact getA_term_ne hk' (a :: b :: r) none (some v)

theorem get_del (t : Trie) (k : List Nat) :
    ∀ k', getO (t.del k).1 k' = if k' = k then none else t.get k' := by
  induction t, k using Trie.del.induct with
  | case1 k p ch term hk hp =>
    have eL : lcp p k = p := by
      have e1 := lead_append_drop (lcp_lead_left p k)
      rw [hp, List.append_nil] at e1
      exact e1
    have hkp : k = p := by
      have e2 := lead_append_drop (lcp_lead_right p k)
      rw [hk, List.append_nil] at e2
      rw [← e2, eL]
    intro k'
    rw [del_terminal ch term hk hp, hkp, delTerm_get, get_node]
  | case2 k p ch term d kr hk hp hc =>
    have eL : lcp p k = p := by
      have e1 := lead_append_drop (lcp_lead_left p k)
      rw [hp, List.append_nil] at e1
      exact e1
    have hkk : k = p ++ d :: kr := by
      have e2 := lead_append_drop (lcp_lead_right p k)
      rw [hk, eL] at e2
      exact e2.symm
    intro k'
    rw [del_not_found ch term hk hp hc, hkk, getO_some, get_node]
    by_cases hk' : k' = p ++ d :: kr
    · rw [if_pos hk', hk', getA_child_none hc p term kr]
    · rw [if_neg hk']
  | case3 k p ch term d kr hk hp c hc c' b hd ih =>
    have eL : lcp p k = p := by
      have e1 := lead_append_drop (lcp_lead_left p k)
      rw [hp, List.append_nil] at e1
      exact e1
    have hkk : k = p ++ d :: kr := by
      have e2 := lead_append_drop (lcp_lead_right p k)
      rw [hk, eL] at e2
      exact e2.symm
    have ihc : ∀ k'', c'.get k'' = if k'' = kr then none else c.get k'' := by
      intro k''
      have := ih k''
      rw [hd, getO_some] at this
      exact this
    intro k'
    rw [del_replace ch term hk hp hc hd, hkk, getO_some, get_node p _ term k']
    by_cases hlead : isLead p k' = true
    · obtain ⟨rest, rfl⟩ := isLead_iff_exists.mp hlead
      cases rest with
      | nil =>
        rw [List.append_nil, if_neg (self_ne_append_cons p d kr), getA_pf,
          get_node, getA_pf]
      | cons d' r' =>
        by_cases hdd : d = d'
        · subst hdd
          have hcc : chLookup (chUpdate ch d c') d = some c' := by
            rw [chLookup_chUpdate, if_pos rfl]
          rw [getA_child_some hcc p term r', ihc r', get_node,
            getA_child_some hc p term r']
          by_cases hr : r' = kr
          · rw [if_pos hr, if_pos (by rw [hr])]
          · rw [if_neg hr, if_neg (by rw [append_cons_inj_iff]; rintro ⟨-, h⟩; exact hr h)]
        · have hcc : chLookup (chUpdate ch d c') d' = chLookup ch d' := by
            rw [chLookup_chUpdate, if_neg hdd]
          have hcond : ¬ (p ++ d' :: r' = p ++ d :: kr) := by
            rw [append_cons_inj_iff]
            rintro ⟨h1, -⟩
            exact hdd h1.symm
          rw [if_neg hcond, get_node]
          cases hl : chLookup ch d' with
          | none =>
            rw [getA_child_none (hcc.trans hl) p term r', getA_child_none hl p term r']
          | some c0 =>
            rw [getA_child_some (hcc.trans hl) p term r', getA_child_some hl p term r']
    · simp only [Bool.not_eq_true] at hlead
      have hcond : ¬ (k' = p ++ d :: kr) := fun he => by
        rw [he, isLead_append] at hlead; cases hlead
      rw [if_neg hcond, getA_not_lead hlead, get_node, getA_not_lead hlead]
  | case4 k p ch term d kr hk hp c hc b hd ih =>
    have eL : lcp p k = p := by
      have e1 := lead_append_drop (lcp_lead_left p k)
      rw [hp, List.append_nil] at e1
      exact e1
    have hkk : k = p ++ d :: kr := by
      have e2 := lead_append_drop (lcp_lead_right p k)
      rw [hk, eL] at e2
      exact e2.symm
    have hcg : ∀ k'', k'' ≠ kr → c.get k'' = none := by
      intro k'' hne
      have := ih k''
      rw [hd, getO_none, if_neg hne] at this
      exact this.symm
    intro k'
    rw [del_gone ch term hk hp hc hd, hkk]
    cases term with
    | some v =>
      rw [delGone_keep (by rintro ⟨h, -⟩; cases h) (by rintro d' c' ⟨h, -⟩; cases h),
        getO_some, get_node p _ (some v) k']
      by_cases hlead : isLead p k' = true
      · obtain ⟨rest, rfl⟩ := isLead_iff_exists.mp hlead
        cases rest with
        | nil =>
          rw [List.append_nil, if_neg (self_ne_append_cons p d kr), getA_pf,
            get_node, getA_pf]
        | cons d' r' =>
          by_cases hdd : d = d'
          · subst hdd
            rw [getA_child_none (chLookup_chRemove_self ch d) p (some v) r', get_node]
            by_cases hr : r' = kr
            · rw [if_pos (by rw [hr])]
            · rw [if_neg (by rw [append_cons_inj_iff]; rintro ⟨-, h⟩; exact hr h),
                getA_child_some hc p (some v) r', hcg r' hr]
          · have hcc : chLookup (chRemove ch d) d' = chLookup ch d' :=
              chLookup_chRemove_ne (fun h => hdd h.symm) ch
            have hcond : ¬ (p ++ d' :: r' = p ++ d :: kr) := by
              rw [append_cons_inj_iff]
              rintro ⟨h1, -⟩
              exact hdd h1.symm
            rw [if_neg hcond, get_node]
            cases hl : chLookup ch d' with
            | none =>
              rw [getA_child_none (hcc.trans hl) p (some v) r',
                getA_child_none hl p (some v) r']
            | some c0 =>
              rw [getA_child_some (hcc.trans hl) p (some v) r',
                getA_child_some hl p (some v) r']
      · simp only [Bool.not_eq_true] at hlead
        have hcond : ¬ (k' = p ++ d :: kr) := fun he => by
          rw [he, isLead_append] at hlead; cases hlead
        rw [if_neg hcond, getA_not_lead hlead, get_node, getA_not_lead hlead]
    | none =>
      cases hr : chRemove ch d with
      | nil =>
        rw [delGone_empty hr, getO_none]
        by_cases hk' : k' = p ++ d :: kr
        · rw [if_pos hk']
        · rw [if_neg hk', get_node]
          by_cases hlead : isLead p k' = true
          · obtain ⟨rest, rfl⟩ := isLead_iff_exists.mp hlead
            cases rest with
            | nil => rw [List.append_nil, getA_pf]
            | cons d' r' =>
              by_cases hdd : d = d'
              · subst hdd
                have hrne : r' ≠ kr := fun h => hk' (by rw [h])
                rw [getA_child_some hc p none r', hcg r' hrne]
              · have hcc : chLookup ch d' = none := by
                  rw [← chLookup_chRemove_ne (fun h => hdd h.symm) ch, hr]
                  rfl
                rw [getA_child_none hcc p none r']
          · simp only [Bool.not_eq_true] at hlead
            rw [getA_not_lead hlead]
      | cons a t =>
        cases t with
        | nil =>
          obtain ⟨d', c'⟩ := a
          have hdne : d' ≠ d := by
            have := chLookup_chRemove_self ch d
            rw [hr, chLookup_single] at this
            intro h
            rw [if_pos h] at this
            cases this
          rw [delGone_merge hr, getO_some, get_merge_eval]
          by_cases hlead : isLead p k' = true
          · obtain ⟨rest, rfl⟩ := isLead_iff_exists.mp hlead
            cases rest with
            | nil =>
              rw [List.append_nil, if_neg (self_ne_append_cons p d kr), getA_pf,
                get_node, getA_pf]
            | cons x r' =>
              by_cases hxd : x = d
              · subst hxd
                rw [getA_child_none (by rw [chLookup_single, if_neg hdne]) p none r',
                  get_node]
                by_cases hrr : r' = kr
                · rw [if_pos (by rw [hrr])]
                · rw [if_neg (by rw [append_cons_inj_iff]; rintro ⟨-, h⟩; exact hrr h),
                    getA_child_some hc p none r', hcg r' hrr]
              · have hcond : ¬ (p ++ x :: r' = p ++ d :: kr) := by
                  rw [append_cons_inj_iff]
                  rintro ⟨h1, -⟩
                  exact hxd h1
                rw [if_neg hcond, get_node]
                have hcc : chLookup ch x = chLookup [(d', c')] x := by
                  rw [← chLookup_chRemove_ne (fun h => hxd h) ch, hr]
                by_cases hxd' : d' = x
                · rw [getA_child_some (c := c') (by rw [chLookup_single, if_pos hxd'])
                      p none r',
                    getA_child_some (c := c')
                      (by rw [hcc, chLookup_single, if_pos hxd']) p none r']
                · rw [getA_child_none (by rw [chLookup_single, if_neg hxd']) p none r',
                    getA_child_none (by rw [hcc, chLookup_single, if_neg hxd']) p none r']
          · simp only [Bool.not_eq_true] at hlead
            have hcond : ¬ (k' = p ++ d :: kr) := fun he => by
              rw [he, isLead_append] at hlead; cases hlead
            rw [if_neg hcond, getA_not_lead hlead, get_node, getA_not_lead hlead]
        | cons a2 t2 =>
          rw [delGone_keep (by rintro ⟨-, h⟩; rw [hr] at h; cases h)
            (by rintro d' c' ⟨-, h⟩; rw [hr] at h; cases h), getO_some,
            get_node p _ none k']
          by_cases hlead : isLead p k' = true
          · obtain ⟨rest, rfl⟩ := isLead_iff_exists.mp hlead
            cases rest with
            | nil =>
              rw [List.append_nil, if_neg (self_ne_append_cons p d kr), getA_pf,
                get_node, getA_pf]
            | cons d' r' =>
              by_cases hdd : d = d'
              · subst hdd
                rw [getA_child_none (chLookup_chRemove_self ch d) p none r', get_node]
                by_cases hrr : r' = kr
                · rw [if_pos (by rw [hrr])]
                · rw [if_neg (by rw [append_cons_inj_iff]; rintro ⟨-, h⟩; exact hrr h),
                    getA_child_some hc p none r', hcg r' hrr]
              · have hcc : chLookup (chRemove ch d) d' = chLookup ch d' :=
                  chLookup_chRemove_ne (fun h => hdd h.symm) ch
                have hcond : ¬ (p ++ d' :: r' = p ++ d :: kr) := by
                  rw [append_cons_inj_iff]
                  rintro ⟨h1, -⟩
                  exact hdd h1.symm
                rw [if_neg hcond, get_node]
                cases hl : chLookup ch d' with
                | none =>
                  rw [getA_child_none (hcc.trans hl) p none r',
                    getA_child_none hl p none r']
                | some c0 =>
                  rw [getA_child_some (hcc.trans hl) p none r',
                    getA_child_some hl p none r']
          · simp only [Bool.not_eq_true] at hlead
            have hcond : ¬ (k' = p ++ d :: kr) := fun he => by
              rw [he, isLead_append] at hlead; cases hlead
            rw [if_neg hcond, getA_not_lead hlead, get_node, getA_not_lead hlead]
  | case5 k p ch term head tail hp =>
    have hnl : isLead p k = false := by
      cases h : isLead p k with
      | false => rfl
      | true =>
        rw [drop_lcp_left_nil_iff.mpr h] at hp
        cases hp
    intro k'
    rw [del_split_arm ch term hp, getO_some, get_node]
    by_cases hk' : k' = k
    · rw [if_pos hk', hk', getA_not_lead hnl]
    · rw [if_neg hk']

theorem chLookup_mem {ch : List (Nat × Trie)} {d : Nat} {c : Trie}
    (h : chLookup ch d = some c) : (d, c) ∈ ch := by
  induction ch with
  | nil => cases h
  | cons a t ih =>
    obtain ⟨d0, c0⟩ := a
    by_cases h0 : d0 = d
    · subst h0
      simp only [chLookup, if_pos rfl] at h
      injection h with h
      subst h
      exact List.mem_cons_self _ _
    · simp only [chLookup, if_neg h0] at h
      exact List.mem_cons_of_mem _ (ih h)

theorem mem_chUpdate {l : List (Nat × Trie)} {d : Nat} {c : Trie} {b : Nat × Trie}
    (h : b ∈ chUpdate l d c) : b = (d, c) ∨ b ∈ l := by
  induction l with
  | nil =>
    simp only [chUpdate] at h
    rcases List.mem_cons.mp h with h | h
    · exact Or.inl h
    · exact absurd h (List.not_mem_nil _)
  | cons a t ih =>
    obtain ⟨d0, c0⟩ := a
    by_cases h1 : d < d0
    · simp only [chUpdate, if_pos h1] at h
      rcases List.mem_cons.mp h with h | h
      · exact Or.inl h
      · exact Or.inr h
    · by_cases h2 : d = d0
      · simp only [chUpdate, if_neg h1, if_pos h2] at h
        rcases List.mem_cons.mp h with h | h
        · exact Or.inl h
        · exact Or.inr (List.mem_cons_of_mem _ h)
      · simp only [chUpdate, if_neg h1, if_neg h2] at h
        rcases List.mem_cons.mp h with h | h
        · exact Or.inr (h ▸ List.mem_cons_self _ _)
        · rcases ih h with h | h
          · exact Or.inl h
          · exact Or.inr (List.mem_cons_of_mem _ h)

theorem length_chUpdate_ge (l : List (Nat × Trie)) (d : Nat) (c : Trie) :
    l.length ≤ (chUpdate l d c).length := by
  induction l with
  | nil => simp [chUpdate]
  | cons a t ih =>
    obtain ⟨d0, c0⟩ := a
    by_cases h1 : d < d0
    · simp [chUpdate, h1]
    · by_cases h2 : d = d0
      · simp [chUpdate, h1, h2]
      · simp only [chUpdate, if_neg h1, if_neg h2, List.length_cons]
        omega

theorem chSorted_chUpdate {l : List (Nat × Trie)} (hs : chSorted l) (d : Nat) (c : Trie) :
    chSorted (chUpdate l d c) := by
  induction l with
  | nil => simp [chUpdate, chSorted]
  | cons a t ih =>
    obtain ⟨d0, c0⟩ := a
    simp only [chSorted, List.pairwise_cons] at hs
    obtain ⟨hhead, htail⟩ := hs
    by_cases h1 : d < d0
    · simp only [chUpdate, if_pos h1, chSorted]
      refine List.Pairwise.cons ?_ (List.Pairwise.cons hhead htail)
      intro b hb
      rcases List.mem_cons.mp hb with rfl | hb
      · exact h1
      · exact lt_trans h1 (hhead b hb)
    · by_cases h2 : d = d0
      · subst h2
        simp only [chUpdate, if_neg h1, if_pos rfl, chSorted]
        exact List.Pairwise.cons hhead htail
      · simp only [chUpdate, if_neg h1, if_neg h2, chSorted]
        refine List.Pairwise.cons ?_ (ih htail)
        intro b hb
        rcases mem_chUpdate hb with rfl | hb
        · have : d0 < d := by omega
          exact this
        · exact hhead b hb

theorem chRemove_sublist (l : List (Nat × Trie)) (d : Nat) :
    (chRemove l d).Sublist l := by
  induction l with
  | nil => simp [chRemove]
  | cons a t ih =>
    obtain ⟨d0, c0⟩ := a
    by_cases h0 : d0 = d
    · simp only [chRemove, if_pos h0]
      exact ih.cons _
    · simp only [chRemove, if_neg h0]
      exact ih.cons₂ _

theorem chSorted_chRemove {l : List (Nat × Trie)} (hs : chSorted l) (d : Nat) :
    chSorted (chRemove l d) :=
  List.Pairwise.sublist (chRemove_sublist l d) hs

theorem mem_chRemove {l : List (Nat × Trie)} {d : Nat} {b : Nat × Trie}
    (h : b ∈ chRemove l d) : b ∈ l :=
  (chRemove_sublist l d).subset h

theorem chSorted_twoCh {d1 d2 : Nat} (hne : d1 ≠ d2) (c1 c2 : Trie) :
    chSorted (twoCh d1 c1 d2 c2) := by
  unfold twoCh
  by_cases h : d1 < d2
  · simp [chSorted, h]
  · have h21 : d2 < d1 := by omega
    simp [chSorted, h, h21]

theorem mem_twoCh {d1 d2 : Nat} {c1 c2 : Trie} {b : Nat × Trie}
    (h : b ∈ twoCh d1 c1 d2 c2) : b = (d1, c1) ∨ b = (d2, c2) := by
  unfold twoCh at h
  by_cases h12 : d1 < d2
  · rw [if_pos h12] at h
    rcases List.mem_cons.mp h with h | h
    · exact Or.inl h
    · rcases List.mem_cons.mp h with h | h
      · exact Or.inr h
      · exact absurd h (List.not_mem_nil _)
  · rw [if_neg h12] at h
    rcases List.mem_cons.mp h with h | h
    · exact Or.inr h
    · rcases List.mem_cons.mp h with h | h
      · exact Or.inl h
      · exact absurd h (List.not_mem_nil _)

theorem twoCh_length (d1 : Nat) (c1 : Trie) (d2 : Nat) (c2 : Trie) :
    (twoCh d1 c1 d2 c2).length = 2 := by
  unfold twoCh
  split <;> rfl

theorem wf_fields {p : List Nat} {ch : List (Nat × Trie)} {term : Option Bytes}
    (h : Trie.WF (.node p ch term)) :
    chSorted ch ∧ (∀ q ∈ ch, Trie.WF q.2) ∧ (term.isSome = true ∨ 2 ≤ ch.length) := by
  cases h with
  | node hs hch hd => exact ⟨hs, hch, hd⟩

theorem wf_node_pf (p' : List Nat) {t : Trie} (h : t.WF) :
    Trie.WF (.node p' t.ch t.term) := by
  cases t with
  | node p ch tm =>
    cases h with
    | node hs hch hd => exact Trie.WF.node hs hch hd

theorem wf_ins (t : Trie) (k : List Nat) (v : Bytes) : t.WF → (t.ins k v).WF := by
  induction t, k, v using Trie.ins.induct with
  | case1 k v p ch term hk hp =>
    intro hwf
    obtain ⟨hs, hch, _⟩ := wf_fields hwf
    rw [ins_terminal ch term v hp hk]
    exact Trie.WF.node hs hch (Or.inl rfl)
  | case2 k v p ch term d kr hk hp c hc ih =>
    intro hwf
    obtain ⟨hs, hch, hd⟩ := wf_fields hwf
    rw [ins_descend ch term v hk hp hc]
    refine Trie.WF.node (chSorted_chUpdate hs d _) ?_ ?_
    · intro q hq
      rcases mem_chUpdate hq with rfl | hq
      · exact ih (hch (d, c) (chLookup_mem hc))
      · exact hch q hq
    · rcases hd with hd | hd
      · exact Or.inl hd
      · exact Or.inr (le_trans hd (length_chUpdate_ge ch d _))
  | case3 k v p ch term d kr hk hp hc =>
    intro hwf
    obtain ⟨hs, hch, hd⟩ := wf_fields hwf
    rw [ins_extend ch term v hk hp hc]
    refine Trie.WF.node (chSorted_chUpdate hs d _) ?_ ?_
    · intro q hq
      rcases mem_chUpdate hq with rfl | hq
      · exact Trie.WF.node (by simp [chSorted]) (by simp) (Or.inl rfl)
      · exact hch q hq
    · rcases hd with hd | hd
      · exact Or.inl hd
      · exact Or.inr (le_trans hd (length_chUpdate_ge ch d _))
  | case4 k v p ch term pd pr hk hp =>
    intro hwf
    obtain ⟨hs, hch, hd⟩ := wf_fields hwf
    rw [ins_split_upper ch term v hk hp]
    refine Trie.WF.node (by simp [chSorted]) ?_ (Or.inl rfl)
    intro q hq
    rw [List.mem_singleton] at hq
    subst hq
    exact Trie.WF.node hs hch hd
  | case5 k v p ch term pd pr d kr hk hp =>
    intro hwf
    have hne : pd ≠ d := lcp_heads_ne hp hk
    obtain ⟨hs, hch, hd⟩ := wf_fields hwf
    rw [ins_split_two ch term v hk hp]
    refine Trie.WF.node (chSorted_twoCh hne _ _) ?_ (Or.inr (by rw [twoCh_length]))
    intro q hq
    rcases mem_twoCh hq with rfl | rfl
    · exact Trie.WF.node hs hch hd
    · exact Trie.WF.node (by simp [chSorted]) (by simp) (Or.inl rfl)

theorem wf_del (t : Trie) (k : List Nat) :
    t.WF → ∀ t', (t.del k).1 = some t' → t'.WF := by
  induction t, k using Trie.del.induct with
  | case1 k p ch term hk hp =>
    intro hwf t' ht'
    obtain ⟨hs, hch, hd⟩ := wf_fields hwf
    rw [del_terminal ch term hk hp] at ht'
    cases term with
    | none =>
      rw [delTerm_none] at ht'
      replace ht' : some (Trie.node p ch none) = some t' := ht'
      injection ht' with e
      subst e
      exact hwf
    | some v =>
      cases ch with
      | nil =>
        rw [delTerm_leaf] at ht'
        replace ht' : (none : Option Trie) = some t' := ht'
        cases ht'
      | cons a t0 =>
        cases t0 with
        | nil =>
          obtain ⟨d, c⟩ := a
          rw [delTerm_merge] at ht'
          replace ht' : some (Trie.node (p ++ d :: c.pf) c.ch c.term) = some t' := ht'
          injection ht' with e
          subst e
          exact wf_node_pf _ (hch (d, c) (by simp))
        | cons a2 t2 =>
          rw [delTerm_clear p v _ (by simp) (by simp)] at ht'
          replace ht' : some (Trie.node p (a :: a2 :: t2) none) = some t' := ht'
          injection ht' with e
          subst e
          exact Trie.WF.node hs hch (Or.inr (by simp))
  | case2 k p ch term d kr hk hp hc =>
    intro hwf t' ht'
    rw [del_not_found ch term hk hp hc] at ht'
    replace ht' : some (Trie.node p ch term) = some t' := ht'
    injection ht' with e
    subst e
    exact hwf
  | case3 k p ch term d kr hk hp c hc c' b hd ih =>
    intro hwf t' ht'
    obtain ⟨hs, hch, hdd⟩ := wf_fields hwf
    rw [del_replace ch term hk hp hc hd] at ht'
    replace ht' : some (Trie.node p (chUpdate ch d c') term) = some t' := ht'
    injection ht' with e
    subst e
    have hc'wf : c'.WF := ih (hch (d, c) (chLookup_mem hc)) c' (by rw [hd])
    refine Trie.WF.node (chSorted_chUpdate hs d _) ?_ ?_
    · intro q hq
      rcases mem_chUpdate hq with rfl | hq
      · exact hc'wf
      · exact hch q hq
    · rcases hdd with h | h
      · exact Or.inl h
      · exact Or.inr (le_trans h (length_chUpdate_ge ch d _))
  | case4 k p ch term d kr hk hp c hc b hd ih =>
    intro hwf t' ht'
    obtain ⟨hs, hch, hdd⟩ := wf_fields hwf
    rw [del_gone ch term hk hp hc hd] at ht'
    cases term with
    | some v =>
      rw [delGone_keep (by rintro ⟨h, -⟩; cases h) (by rintro d' c' ⟨h, -⟩; cases h)] at ht'
      replace ht' : some (Trie.node p (chRemove ch d) (some v)) = some t' := ht'
      injection ht' with e
      subst e
      exact Trie.WF.node (chSorted_chRemove hs d)
        (fun q hq => hch q (mem_chRemove hq)) (Or.inl rfl)
    | none =>
      cases hr : chRemove ch d with
      | nil =>
        rw [delGone_empty hr] at ht'
        replace ht' : (none : Option Trie) = some t' := ht'
        cases ht'
      | cons a t0 =>
        cases t0 with
        | nil =>
          obtain ⟨d', c'⟩ := a
          rw [delGone_merge hr] at ht'
          replace ht' : some (Trie.node (p ++ d' :: c'.pf) c'.ch c'.term) = some t' := ht'
          injection ht' with e
          subst e
          exact wf_node_pf _ (hch (d', c') (mem_chRemove (by rw [hr]; simp)))
        | cons a2 t2 =>
          rw [delGone_keep (by rintro ⟨-, h⟩; rw [hr] at h; cases h)
            (by rintro d' c' ⟨-, h⟩; rw [hr] at h; cases h)] at ht'
          replace ht' : some (Trie.node p (chRemove ch d) none) = some t' := ht'
          injection ht' with e
          subst e
          refine Trie.WF.node (chSorted_chRemove hs d)
            (fun q hq => hch q (mem_chRemove hq)) (Or.inr ?_)
          rw [hr]
          simp
  | case5 k p ch term head tail hp =>
    intro hwf t' ht'
    rw [del_split_arm ch term hp] at ht'
    replace ht' : some (Trie.node p ch term) = some t' := ht'
    injection ht' with e
    subst e
    exact hwf

theorem dom_ne {t : Trie} (h : t.WF) : ∃ k w, t.get k = some w := by
  induction h with
  | @node pf ch term hs hch hd ih =>
    cases term with
    | some v => exact ⟨pf, v, by rw [get_node, getA_pf]⟩
    | none =>
      rcases hd with hd | hd
      · simp at hd
      · cases ch with
        | nil => simp at hd
        | cons a t0 =>
          obtain ⟨d, c⟩ := a
          obtain ⟨k0, w0, hk0⟩ := ih (d, c) (List.mem_cons_self _ _)
          refine ⟨pf ++ d :: k0, w0, ?_⟩
          rw [get_node, getA_child_some (c := c) (by simp [chLookup]) pf none k0]
          exact hk0

theorem get_some_lead {p k : List Nat} {ch : List (Nat × Trie)} {term : Option Bytes}
    {w : Bytes} (h : getA p ch term k = some w) : isLead p k = true := by
  cases hl : isLead p k with
  | true => rfl
  | false =>
    rw [getA_not_lead hl] at h
    cases h

theorem isLead_of_lead_le {a b l : Bytes} (ha : isLead a l = true) (hb : isLead b l = true)
    (hlen : a.length ≤ b.length) : isLead a b = true := by
  obtain ⟨r1, rfl⟩ := isLead_iff_exists.mp ha
  obtain ⟨r2, he⟩ := isLead_iff_exists.mp hb
  have htake : b.take a.length = a := by
    have h1 : (b ++ r2).take a.length = a := by
      rw [← he]
      exact List.take_left _ _
    rw [List.take_append_of_le_length hlen] at h1
    exact h1
  refine isLead_iff_exists.mpr ⟨b.drop a.length, ?_⟩
  calc b = b.take a.length ++ b.drop a.length := (List.take_append_drop _ _).symm
    _ = a ++ b.drop a.length := by rw [htake]

theorem isLead_comparable {a b l : Bytes} (ha : isLead a l = true)
    (hb : isLead b l = true) : isLead a b = true ∨ isLead b a = true := by
  by_cases h : a.length ≤ b.length
  · exact Or.inl (isLead_of_lead_le ha hb h)
  · exact Or.inr (isLead_of_lead_le hb ha (by omega))

theorem lead_strict {a b : Bytes} (h : isLead a b = true) (hne : a ≠ b) :
    ∃ d e, b = a ++ d :: e := by
  obtain ⟨r, rfl⟩ := isLead_iff_exists.mp h
  cases r with
  | nil =>
    rw [List.append_nil] at hne
    exact absurd rfl hne
  | cons d e => exact ⟨d, e, rfl⟩

theorem no_strict_lead {p : List Nat} {ch : List (Nat × Trie)} {term : Option Bytes}
    (hwf : Trie.WF (.node p ch term)) (d : Nat) (e : List Nat)
    (hall : ∀ k w, getA p ch term k = some w → isLead (p ++ d :: e) k = true) :
    False := by
  obtain ⟨hs, hch, hd⟩ := wf_fields hwf
  cases term with
  | some v =>
    have hv := hall p v (getA_pf p ch (some v))
    have hf := lead_longer_false p d e
    rw [hv] at hf
    cases hf
  | none =>
    rcases hd with hd | hd
    · simp at hd
    · obtain ⟨a1, a2, rest, rfl⟩ : ∃ a b r, ch = a :: b :: r := by
        cases ch with
        | nil => simp at hd
        | cons a t0 =>
          cases t0 with
          | nil => simp at hd
          | cons b r => exact ⟨a, b, r, rfl⟩
      obtain ⟨d1, c1⟩ := a1
      obtain ⟨d2, c2⟩ := a2
      have h12 : d1 < d2 := by
        simp only [chSorted, List.pairwise_cons] at hs
        exact hs.1 (d2, c2) (List.mem_cons_self _ _)
      have hne12 : d1 ≠ d2 := by omega
      obtain ⟨k1, w1, hk1⟩ := dom_ne (hch (d1, c1) (by simp))
      obtain ⟨k2, w2, hk2⟩ := dom_ne (hch (d2, c2) (by simp))
      have g1 : getA p ((d1, c1) :: (d2, c2) :: rest) none (p ++ d1 :: k1) = some w1 := by
        rw [getA_child_some (c := c1) (by simp [chLookup]) p none k1]
        exact hk1
      have g2 : getA p ((d1, c1) :: (d2, c2) :: rest) none (p ++ d2 :: k2) = some w2 := by
        rw [getA_child_some (c := c2) (by simp [chLookup, hne12]) p none k2]
        exact hk2
      have l1 := hall _ w1 g1
      have l2 := hall _ w2 g2
      rw [isLead_append_iff p (d :: e) (d1 :: k1)] at l1
      rw [isLead_append_iff p (d :: e) (d2 :: k2)] at l2
      simp only [isLead, Bool.and_eq_true, decide_eq_true_eq] at l1 l2
      exact hne12 (l1.1.symm.trans l2.1)

theorem chLookup_none_of_all_ne {t : List (Nat × Trie)} {x : Nat}
    (h : ∀ b ∈ t, b.1 ≠ x) : chLookup t x = none := by
  induction t with
  | nil => rfl
  | cons a r ih =>
    obtain ⟨d0, c0⟩ := a
    have h0 : d0 ≠ x := h (d0, c0) (List.mem_cons_self _ _)
    simp only [chLookup, if_neg h0]
    exact ih (fun b hb => h b (List.mem_cons_of_mem _ hb))

theorem chLookup_le_of_some {d2 : Nat} {c2 : Trie} {t2 : List (Nat × Trie)} {x : Nat}
    {c : Trie} (hs : chSorted ((d2, c2) :: t2))
    (h : chLookup ((d2, c2) :: t2) x = some c) : d2 ≤ x := by
  by_cases h0 : d2 = x
  · omega
  · simp only [chLookup, if_neg h0] at h
    have hm := chLookup_mem h
    simp only [chSorted, List.pairwise_cons] at hs
    have h2 : d2 < x := hs.1 (x, c) hm
    omega

theorem chSorted_ext {l1 l2 : List (Nat × Trie)} (h1 : chSorted l1) (h2 : chSorted l2)
    (h : ∀ d, chLookup l1 d = chLookup l2 d) : l1 = l2 := by
  induction l1 generalizing l2 with
  | nil =>
    cases l2 with
    | nil => rfl
    | cons a t =>
      obtain ⟨d2, c2⟩ := a
      have := h d2
      simp [chLookup] at this
  | cons a t1 ih =>
    obtain ⟨d1, c1⟩ := a
    cases l2 with
    | nil =>
      have := h d1
      simp [chLookup] at this
    | cons b t2 =>
      obtain ⟨d2, c2⟩ := b
      have hd12 : d1 = d2 := by
        have e1 : chLookup ((d1, c1) :: t1) d1 = some c1 := by simp [chLookup]
        have e2 : chLookup ((d2, c2) :: t2) d2 = some c2 := by simp [chLookup]
        have le1 : d2 ≤ d1 := chLookup_le_of_some h2 (by rw [← h d1]; exact e1)
        have le2 : d1 ≤ d2 := chLookup_le_of_some h1 (by rw [h d2]; exact e2)
        omega
      subst hd12
      have hc12 : c1 = c2 := by
        have := h d1
        simp [chLookup] at this
        exact this
      subst hc12
      simp only [chSorted, List.pairwise_cons] at h1 h2
      congr 1
      refine ih h1.2 h2.2 ?_
      intro d
      by_cases hd : d = d1
      · subst hd
        rw [chLookup_none_of_all_ne (fun b hb => by
            have hx : d < b.1 := h1.1 b hb
            omega),
          chLookup_none_of_all_ne (fun b hb => by
            have hx : d < b.1 := h2.1 b hb
            omega)]
      · have hdd := h d
        have hne : ¬ d1 = d := fun hh => hd hh.symm
        simp only [chLookup, if_neg hne] at hdd
        exact hdd

theorem trie_ext_aux : ∀ (n : Nat) (t1 t2 : Trie), sizeOf t1 ≤ n → t1.WF → t2.WF →
    (∀ k, t1.get k = t2.get k) → t1 = t2 := by
  intro n
  induction n with
  | zero =>
    intro t1 t2 hsz
    cases t1 with
    | node p ch tm =>
      simp at hsz
  | succ n ih =>
    intro t1 t2 hsz hwf1 hwf2 hget
    cases t1 with
    | node p1 ch1 tm1 =>
      cases t2 with
      | node p2 ch2 tm2 =>
        obtain ⟨k0, w0, hk0⟩ := dom_ne hwf1
        have hk0' : (Trie.node p2 ch2 tm2).get k0 = some w0 := by
          rw [← hget]
          exact hk0
        have lead1 : isLead p1 k0 = true := get_some_lead hk0
        have lead2 : isLead p2 k0 = true := get_some_lead hk0'
        have hpp : p1 = p2 := by
          rcases isLead_comparable lead1 lead2 with hc | hc
          · by_contra hne
            obtain ⟨d, e, he⟩ := lead_strict hc hne
            refine no_strict_lead hwf1 d e ?_
            intro k w hw
            have hw2 : (Trie.node p2 ch2 tm2).get k = some w := by
              rw [← hget]
              exact hw
            have := get_some_lead hw2
            rw [he] at this
            exact this
          · by_contra hne
            obtain ⟨d, e, he⟩ := lead_strict hc (fun hh => hne hh.symm)
            refine no_strict_lead hwf2 d e ?_
            intro k w hw
            have hw1 : (Trie.node p1 ch1 tm1).get k = some w := by
              rw [hget]
              exact hw
            have := get_some_lead hw1
            rw [he] at this
            exact this
        subst hpp
        have htm : tm1 = tm2 := by
          have := hget p1
          rw [get_node, get_node, getA_pf, getA_pf] at this
          exact this
        subst htm
        obtain ⟨hs1, hch1, -⟩ := wf_fields hwf1
        obtain ⟨hs2, hch2, -⟩ := wf_fields hwf2
        have hch12 : ch1 = ch2 := by
          refine chSorted_ext hs1 hs2 ?_
          intro d
          cases l1 : chLookup ch1 d with
          | none =>
            cases l2 : chLookup ch2 d with
            | none => rfl
            | some c2 =>
              obtain ⟨k2, w2, hk2⟩ := dom_ne (hch2 (d, c2) (chLookup_mem l2))
              have e2 : (Trie.node p1 ch2 tm1).get (p1 ++ d :: k2) = some w2 := by
                rw [get_node, getA_child_some l2 p1 tm1 k2]
                exact hk2
              have e1 : (Trie.node p1 ch1 tm1).get (p1 ++ d :: k2) = none := by
                rw [get_node, getA_child_none l1 p1 tm1 k2]
              rw [hget] at e1
              rw [e1] at e2
              cases e2
          | some c1 =>
            cases l2 : chLookup ch2 d with
            | none =>
              obtain ⟨k1, w1, hk1⟩ := dom_ne (hch1 (d, c1) (chLookup_mem l1))
              have e1 : (Trie.node p1 ch1 tm1).get (p1 ++ d :: k1) = some w1 := by
                rw [get_node, getA_child_some l1 p1 tm1 k1]
                exact hk1
              have e2 : (Trie.node p1 ch2 tm1).get (p1 ++ d :: k1) = none := by
                rw [get_node, getA_child_none l2 p1 tm1 k1]
              rw [hget] at e1
              rw [e1] at e2
              cases e2
            | some c2 =>
              have hm1 := chLookup_mem l1
              have hszc : sizeOf c1 ≤ n := by
                have hlt := List.sizeOf_lt_of_mem hm1
                simp only [Prod.mk.sizeOf_spec] at hlt
                simp only [Trie.node.sizeOf_spec] at hsz
                omega
              have heq : ∀ r, c1.get r = c2.get r := by
                intro r
                have := hget (p1 ++ d :: r)
                rw [get_node, get_node, getA_child_some l1 p1 tm1 r,
                  getA_child_some l2 p1 tm1 r] at this
                exact this
              rw [ih c1 c2 hszc (hch1 (d, c1) hm1) (hch2 (d, c2) (chLookup_mem l2)) heq]
        rw [hch12]

theorem trie_ext {t1 t2 : Trie} (h1 : t1.WF) (h2 : t2.WF)
    (h : ∀ k, t1.get k = t2.get k) : t1 = t2 :=
  trie_ext_aux (sizeOf t1) t1 t2 (le_refl _) h1 h2 h

theorem unpackByte_inj {ar : PathArity} {b1 b2 : Nat} (h1 : b1 < 256) (h2 : b2 < 256)
    (h : unpackByte ar b1 = unpackByte ar b2) : b1 = b2 := by
  cases ar <;> simp [unpackByte] at h <;> omega

theorem unpackKey_inj {ar : PathArity} : ∀ {k1 k2 : Bytes}, ValidKey k1 → ValidKey k2 →
    unpackKey ar k1 = unpackKey ar k2 → k1 = k2 := by
  intro k1
  induction k1 with
  | nil =>
    intro k2 _ _ h
    cases k2 with
    | nil => rfl
    | cons b r => cases ar <;> simp [unpackKey, unpackByte] at h
  | cons b1 r1 ih =>
    intro k2 h1 h2 h
    cases k2 with
    | nil => cases ar <;> simp [unpackKey, unpackByte] at h
    | cons b2 r2 =>
      simp only [unpackKey] at h
      have hlen : (unpackByte ar b1).length = (unpackByte ar b2).length := by
        cases ar <;> rfl
      obtain ⟨e1, e2⟩ := List.append_inj h hlen
      have hb : b1 = b2 :=
        unpackByte_inj (h1 b1 (by simp)) (h2 b2 (by simp)) e1
      have hr : r1 = r2 :=
        ih (fun b hb0 => h1 b (List.mem_cons_of_mem _ hb0))
          (fun b hb0 => h2 b (List.mem_cons_of_mem _ hb0)) e2
      rw [hb, hr]

theorem unpackKey_eq_nil_iff {ar : PathArity} {k : Bytes} :
    unpackKey ar k = [] ↔ k = [] := by
  cases k with
  | nil => simp [unpackKey]
  | cons b r => cases ar <;> simp [unpackKey, unpackByte]

theorem rootInv_init (ident : Bytes) : RootInv ident (initRoot ident) :=
  ⟨Trie.WF.node (by simp [chSorted]) (by simp) (Or.inl rfl), [], rfl⟩

theorem root_ins_shape (ch : List (Nat × Trie)) (w : Bytes) (d : Nat) (kr : List Nat)
    (v : Bytes) :
    ∃ ch', (Trie.node [] ch (some w)).ins (d :: kr) v = Trie.node [] ch' (some w) := by
  cases hc : chLookup ch d with
  | some c => exact ⟨_, ins_descend ch (some w) v rfl rfl hc⟩
  | none => exact ⟨_, ins_extend ch (some w) v rfl rfl hc⟩

theorem root_del_shape (ch : List (Nat × Trie)) (w : Bytes) (d : Nat) (kr : List Nat) :
    ∃ ch', ((Trie.node [] ch (some w)).del (d :: kr)).1
      = some (Trie.node [] ch' (some w)) := by
  cases hc : chLookup ch d with
  | none =>
    exact ⟨ch, by
      rw [del_not_found (p := []) (k := d :: kr) ch (some w) rfl rfl hc]⟩
  | some c =>
    cases hd : c.del kr with
    | mk o b =>
      cases o with
      | some c' =>
        exact ⟨chUpdate ch d c', by
          rw [del_replace (p := []) (k := d :: kr) ch (some w) rfl rfl hc hd]⟩
      | none =>
        refine ⟨chRemove ch d, ?_⟩
        rw [del_gone (p := []) (k := d :: kr) ch (some w) rfl rfl hc hd,
          delGone_keep (by rintro ⟨h, -⟩; cases h) (by rintro d' c' ⟨h, -⟩; cases h)]

theorem applyOp_inv {ident : Bytes} {t : Trie} (hI : RootInv ident t) (ar : PathArity)
    (op : TrieOp) : RootInv ident (applyOp ar t op) := by
  obtain ⟨hwf, ch, rfl⟩ := hI
  cases op with
  | commit => exact ⟨hwf, ch, rfl⟩
  | upd key val =>
    cases hu : unpackKey ar key with
    | nil =>
      simp only [applyOp, hu]
      exact ⟨hwf, ch, rfl⟩
    | cons d kr =>
      simp only [applyOp, hu]
      by_cases hv : val = []
      · rw [if_pos hv]
        obtain ⟨ch', he⟩ := root_del_shape ch ident d kr
        rw [he]
        exact ⟨wf_del _ _ hwf _ he, ch', rfl⟩
      · rw [if_neg hv]
        obtain ⟨ch', he⟩ := root_ins_shape ch ident d kr val
        rw [he]
        exact ⟨he ▸ wf_ins _ _ val hwf, ch', rfl⟩

theorem applyOp_get {ident : Bytes} {t : Trie} (hI : RootInv ident t) (ar : PathArity)
    (op : TrieOp) (q : List Nat) :
    (applyOp ar t op).get q = pvStep ar q (t.get q) op := by
  obtain ⟨hwf, ch, rfl⟩ := hI
  cases op with
  | commit => rfl
  | upd key val =>
    cases hu : unpackKey ar key with
    | nil =>
      simp only [applyOp, pvStep, hu]
      rw [if_neg (by rintro ⟨rfl, hq⟩; exact hq rfl)]
    | cons d kr =>
      simp only [applyOp, pvStep, hu]
      by_cases hv : val = []
      · rw [if_pos hv]
        obtain ⟨ch', he⟩ := root_del_shape ch ident d kr
        rw [he]
        have hg := get_del (Trie.node [] ch (some ident)) (d :: kr) q
        rw [he, getO_some] at hg
        rw [hg]
        by_cases hq : q = d :: kr
        · rw [if_pos hq, if_pos ⟨hq.symm, by simp [hq]⟩, if_pos hv]
        · rw [if_neg hq, if_neg (by rintro ⟨h1, -⟩; exact hq h1.symm)]
      · rw [if_neg hv]
        have hg := get_ins (Trie.node [] ch (some ident)) (d :: kr) val q
        rw [hg]
        by_cases hq : q = d :: kr
        · rw [if_pos hq, if_pos ⟨hq.symm, by simp [hq]⟩, if_neg hv]
        · rw [if_neg hq, if_neg (by rintro ⟨h1, -⟩; exact hq h1.symm)]

theorem applyOps_inv {ident : Bytes} (ar : PathArity) :
    ∀ (ops : List TrieOp) (t : Trie), RootInv ident t →
      RootInv ident (applyOps ar t ops) := by
  intro ops
  induction ops with
  | nil => intro t hI; exact hI
  | cons op rest ih =>
    intro t hI
    simp only [applyOps, List.foldl_cons]
    have := ih (applyOp ar t op) (applyOp_inv hI ar op)
    simp only [applyOps] at this
    exact this

theorem applyOps_get {ident : Bytes} (ar : PathArity) :
    ∀ (ops : List TrieOp) (t : Trie), RootInv ident t → ∀ q,
      (applyOps ar t ops).get q = ops.foldl (pvStep ar q) (t.get q) := by
  intro ops
  induction ops with
  | nil => intro t hI q; rfl
  | cons op rest ih =>
    intro t hI q
    simp only [applyOps, List.foldl_cons]
    have := ih (applyOp ar t op) (applyOp_inv hI ar op) q
    simp only [applyOps] at this
    rw [this, applyOp_get hI ar op q]

theorem foldl_pvStep_nil_q (ar : PathArity) :
    ∀ (ops : List TrieOp) (acc : Option Bytes), ops.foldl (pvStep ar []) acc = acc := by
  intro ops
  induction ops with
  | nil => intro acc; rfl
  | cons op rest ih =>
    intro acc
    rw [List.foldl_cons, ih]
    cases op with
    | commit => rfl
    | upd key val =>
      simp only [pvStep]
      rw [if_neg (by rintro ⟨-, hq⟩; exact hq rfl)]

theorem pv_foldl_eq_map (ar : PathArity) :
    ∀ (ops : List TrieOp), ValidOps ops → ∀ {kb : Bytes}, ValidKey kb →
      unpackKey ar kb ≠ [] → ∀ acc,
      ops.foldl (pvStep ar (unpackKey ar kb)) acc = ops.foldl (mapStep kb) acc := by
  intro ops
  induction ops with
  | nil => intro _ kb _ _ acc; rfl
  | cons op rest ih =>
    intro hv kb hkb hne acc
    rw [List.foldl_cons, List.foldl_cons,
      ih (fun o ho => hv o (List.mem_cons_of_mem _ ho)) hkb hne]
    have hstep : pvStep ar (unpackKey ar kb) acc op = mapStep kb acc op := by
      cases op with
      | commit => rfl
      | upd key val =>
        have hkey : ValidKey key := hv (.upd key val) (List.mem_cons_self _ _)
        simp only [pvStep, mapStep]
        by_cases hk : key = kb
        · subst hk
          rw [if_pos ⟨rfl, hne⟩, if_pos rfl]
        · rw [if_neg (by rintro ⟨h1, -⟩; exact hk (unpackKey_inj hkey hkb h1)),
            if_neg hk]
    rw [hstep]

theorem pv_foldl_none (ar : PathArity) {q : List Nat} :
    ∀ (ops : List TrieOp), ValidOps ops →
      (¬ ∃ kb, ValidKey kb ∧ unpackKey ar kb = q ∧ q ≠ []) → ∀ acc,
      ops.foldl (pvStep ar q) acc = acc := by
  intro ops
  induction ops with
  | nil => intro _ _ acc; rfl
  | cons op rest ih =>
    intro hv hq acc
    rw [List.foldl_cons, ih (fun o ho => hv o (List.mem_cons_of_mem _ ho)) hq]
    cases op with
    | commit => rfl
    | upd key val =>
      simp only [pvStep]
      rw [if_neg (by
        rintro ⟨h1, h2⟩
        exact hq ⟨key, hv (.upd key val) (List.mem_cons_self _ _), h1, h2⟩)]

theorem pv_eq_of_map_eq (ar : PathArity) {ops1 ops2 : List TrieOp}
    (hv1 : ValidOps ops1) (hv2 : ValidOps ops2)
    (h : ∀ kb, opsMap ops1 kb = opsMap ops2 kb) (q : List Nat) :
    ops1.foldl (pvStep ar q) none = ops2.foldl (pvStep ar q) none := by
  by_cases hq : ∃ kb, ValidKey kb ∧ unpackKey ar kb = q ∧ q ≠ []
  · obtain ⟨kb, hkb, rfl, hne⟩ := hq
    have hne' : unpackKey ar kb ≠ [] := hne
    rw [pv_foldl_eq_map ar ops1 hv1 hkb hne' none,
      pv_foldl_eq_map ar ops2 hv2 hkb hne' none]
    exact h kb
  · rw [pv_foldl_none ar ops1 hv1 hq none, pv_foldl_none ar ops2 hv2 hq none]

/-- C1 : for a fixed commitment model (any function of the canonical trie) and
path arity, the trie reached from the initial root by an update sequence - and
hence the root commitment computed from it - is a pure function of the final
key-to-value mapping of the sequence: two sequences with the same final mapping
(permutations, different batching, or extra intermediate commits) yield the same
result. -/
theorem c1_root_commitment_order_independent {α : Type} (model : Trie → α) (ar : PathArity)
    (ident : Bytes) (ops1 ops2 : List TrieOp)
    (hv1 : ValidOps ops1) (hv2 : ValidOps ops2)
    (h : ∀ kb, opsMap ops1 kb = opsMap ops2 kb) :
    model (applyOps ar (initRoot ident) ops1)
      = model (applyOps ar (initRoot ident) ops2) := by
  have hI : RootInv ident (initRoot ident) := rootInv_init ident
  have hI1 := applyOps_inv ar ops1 _ hI
  have hI2 := applyOps_inv ar ops2 _ hI
  refine congrArg model (trie_ext hI1.1 hI2.1 ?_)
  intro q
  rw [applyOps_get ar ops1 _ hI q, applyOps_get ar ops2 _ hI q]
  by_cases hq : q = []
  · subst hq
    rw [foldl_pvStep_nil_q ar ops1, foldl_pvStep_nil_q ar ops2]
  · have hbase : (initRoot ident).get q = none := by
      cases q with
      | nil => exact absurd rfl hq
      | cons d r =>
        show getA [] [] (some ident) (d :: r) = none
        simp [getA, chLookup]
    rw [hbase]
    exact pv_eq_of_map_eq ar hv1 hv2 h q

theorem hasSeg_append_right (s : Bytes) {n t : Bytes} (h : hasSeg n t = true) :
    hasSeg n (s ++ t) = true := by
  induction s with
  | nil => exact h
  | cons a r ih => simp [hasSeg, ih]

theorem msg_not_exist_contains (root : Bytes) :
    hasSeg (str2b "does not exist")
      (str2b "root commitment '" ++ root ++ str2b "' does not exist") = true := by
  rw [List.append_assoc]
  apply hasSeg_append_right
  apply hasSeg_append_right
  have hsplit : str2b "' does not exist" = str2b "' " ++ str2b "does not exist" := by
    decide
  rw [hsplit]
  exact hasSeg_append_right _ (hasSeg_of_isLead (isLead_refl _))

theorem c1_witness :
    ValidOps [TrieOp.upd [1] [5], TrieOp.upd [2] [6]] ∧
    ValidOps [TrieOp.upd [2] [6], TrieOp.commit, TrieOp.upd [1] [5]] ∧
    id (applyOps PathArity.sixteen (initRoot [9]) [TrieOp.upd [1] [5], TrieOp.upd [2] [6]])
      = id (applyOps PathArity.sixteen (initRoot [9])
          [TrieOp.upd [2] [6], TrieOp.commit, TrieOp.upd [1] [5]]) := by
  have hv1 : ValidOps [TrieOp.upd [1] [5], TrieOp.upd [2] [6]] := by
    intro op hop
    rcases List.mem_cons.mp hop with rfl | hop
    · intro b hb
      rcases List.mem_cons.mp hb with rfl | hb
      · omega
      · exact absurd hb (List.not_mem_nil _)
    · rcases List.mem_cons.mp hop with rfl | hop
      · intro b hb
        rcases List.mem_cons.mp hb with rfl | hb
        · omega
        · exact absurd hb (List.not_mem_nil _)
      · exact absurd hop (List.not_mem_nil _)
  have hv2 : ValidOps [TrieOp.upd [2] [6], TrieOp.commit, TrieOp.upd [1] [5]] := by
    intro op hop
    rcases List.mem_cons.mp hop with rfl | hop
    · intro b hb
      rcases List.mem_cons.mp hb with rfl | hb
      · omega
      · exact absurd hb (List.not_mem_nil _)
    · rcases List.mem_cons.mp hop with rfl | hop
      · trivial
      · rcases List.mem_cons.mp hop with rfl | hop
        · intro b hb
          rcases List.mem_cons.mp hb with rfl | hb
          · omega
          · exact absurd hb (List.not_mem_nil _)
        · exact absurd hop (List.not_mem_nil _)
  have hmap : ∀ kb, opsMap [TrieOp.upd [1] [5], TrieOp.upd [2] [6]] kb
      = opsMap [TrieOp.upd [2] [6], TrieOp.commit, TrieOp.upd [1] [5]] kb := by
    intro kb
    by_cases h1 : ([1] : Bytes) = kb
    · by_cases h2 : ([2] : Bytes) = kb
      · exact absurd (h1.trans h2.symm) (by decide)
      · simp [opsMap, mapStep, h1, h2]
    · by_cases h2 : ([2] : Bytes) = kb
      · simp [opsMap, mapStep, h1, h2]
      · simp [opsMap, mapStep, h1, h2]
  exact ⟨hv1, hv2,
    c1_root_commitment_order_independent id PathArity.sixteen [9] _ _ hv1 hv2 hmap⟩

/-- C5 : Commit on a TrieUpdatable whose persistent root is still set succeeds,
returns the commitment of the mutated root, and clears the persistent root,
invalidating the instance; a second Commit then fails with an assertion error
whose message contains "invalidated". -/
theorem c5_commit_invalidates (cm : Bytes → Bytes) (tr : TrieUpdatableM)
    (h : tr.persistentRoot.isSome = true) :
    ∃ ret tr', TrieUpdatableM.Commit cm tr = .ok (ret, tr') ∧
      tr'.persistentRoot = none ∧
      ∃ msg, TrieUpdatableM.Commit cm tr' = .error msg ∧
        hasSeg (str2b "invalidated") msg = true := by
  cases hr : tr.persistentRoot with
  | none =>
    rw [hr] at h
    cases h
  | some r =>
    refine ⟨cm tr.mutatedRootData, ⟨none, tr.mutatedRootData⟩, ?_, rfl, ?_⟩
    · simp [TrieUpdatableM.Commit, hr]
    · refine ⟨_, rfl, ?_⟩
      decide

theorem c5_witness :
    (TrieUpdatableM.mk (some [1]) [2]).persistentRoot.isSome = true ∧
    ∃ ret tr',
      TrieUpdatableM.Commit (fun d => d) (TrieUpdatableM.mk (some [1]) [2])
        = .ok (ret, tr') ∧
      tr'.persistentRoot = none ∧
      ∃ msg, TrieUpdatableM.Commit (fun d => d) tr' = .error msg ∧
        hasSeg (str2b "invalidated") msg = true :=
  ⟨rfl, c5_commit_invalidates (fun d => d) ⟨some [1], [2]⟩ rfl⟩

/-- C6 : newTrieReader (and NewTrieUpdatable) fail with a message containing
"does not exist" precisely when no node data is present in the store under the
root commitment; when it is present they succeed and the reader's Root (and the
updatable's persistent root) equals that commitment. -/
theorem c6_new_reader_root (store : InMemoryKVStore) (root : Bytes) :
    match fetchNodeData store root with
    | none =>
        (∃ msg, newTrieReaderM store root = .error msg ∧
          hasSeg (str2b "does not exist") msg = true) ∧
        (∃ msg, newTrieUpdatableM store root = .error msg ∧
          hasSeg (str2b "does not exist") msg = true)
    | some nd =>
        (∃ tr, newTrieReaderM store root = .ok (tr, nd) ∧ tr.Root = root) ∧
        (∃ tu, newTrieUpdatableM store root = .ok tu ∧
          tu.persistentRoot = some root) := by
  cases h : fetchNodeData store root with
  | none =>
    refine ⟨⟨str2b "root commitment '" ++ root ++ str2b "' does not exist", ?_,
        msg_not_exist_contains root⟩,
      ⟨str2b "root commitment '" ++ root ++ str2b "' does not exist", ?_,
        msg_not_exist_contains root⟩⟩
    · simp [newTrieReaderM, h]
    · simp [newTrieUpdatableM, newTrieReaderM, h]
  | some nd =>
    refine ⟨⟨⟨store, root⟩, ?_, rfl⟩, ⟨⟨some root, nd⟩, ?_, rfl⟩⟩
    · simp [newTrieReaderM, h]
    · simp [newTrieUpdatableM, newTrieReaderM, h]

end Unitrie
